import Mathlib

/-!
Verification of the logpeck task-orchestration and windowed-aggregation engine.

This file shallowly embeds the Go sources (`aggregator.go`, `peck_task.go`,
`protocol.go`, and the sender file) into Lean and proves or refutes the
specification claims about them.

Conventions:
* Go `int64` is modelled as `Int`; where Go arithmetic can wrap (two's
  complement overflow) we apply `wrap64` explicitly.
* Go `map[K]V` is modelled as an association list `List (K × V)` with
  `assocLookup` / `mapSet` giving Go's lookup / assignment semantics
  (Go's iteration order is unspecified; the association-list order is a
  deterministic representative and no theorem below depends on it).
* Go run-time panics (out-of-range indexing, division by zero,
  failed type assertions, explicit `panic`) are modelled by `Option`:
  `none` is a panic.
* `interface{}` values flowing through the pipeline are modelled by `GoVal`,
  which has one constructor per dynamic type the repository actually
  stores in such values (`string`, `int64`, `map[string]int64`).
-/

/-- Association-list lookup, Go `v, ok := m[k]`. -/
def assocLookup {α : Type} : List (String × α) → String → Option α
  | [], _ => none
  | (k₁, v) :: rest, k => if k₁ = k then some v else assocLookup rest k

/-- Go map assignment `m[k] = v`: replace the binding if the key is present,
otherwise add it. -/
def mapSet {α : Type} : List (String × α) → String → α → List (String × α)
  | [], k, v => [(k, v)]
  | (k₁, v₁) :: rest, k, v =>
    if k₁ = k then (k, v) :: rest else (k₁, v₁) :: mapSet rest k v

theorem assocLookup_mapSet {α : Type} (m : List (String × α)) (a b : String) (v : α) :
    assocLookup (mapSet m a v) b = if a = b then some v else assocLookup m b := by
  induction m with
  | nil => simp [mapSet, assocLookup]
  | cons hd tl ih =>
    obtain ⟨c, w⟩ := hd
    by_cases h : c = a
    · subst h
      simp only [mapSet, if_pos rfl, assocLookup]
      by_cases h₁ : c = b <;> simp [h₁]
    · simp only [mapSet, if_neg h, assocLookup]
      by_cases h₁ : c = b
      · subst h₁
        have hne : ¬ a = c := fun he => h he.symm
        simp [hne]
      · simp [h₁, ih]

/-- Minimum value of Go `int64`. -/
def int64Min : Int := -(2 ^ 63)

/-- Maximum value of Go `int64`. -/
def int64Max : Int := 2 ^ 63 - 1

/-- Two's-complement wrap-around of Go `int64` arithmetic. -/
def wrap64 (n : Int) : Int := (n + 2 ^ 63) % 2 ^ 64 - 2 ^ 63

theorem wrap64_eq_self (n : Int) (h₁ : int64Min ≤ n) (h₂ : n ≤ int64Max) : wrap64 n = n := by
  unfold wrap64
  unfold int64Min at h₁
  unfold int64Max at h₂
  have h : (n + 2 ^ 63) % 2 ^ 64 = n + 2 ^ 63 := Int.emod_eq_of_lt (by omega) (by omega)
  omega

/-- Decimal digits of a string, Go-style: nonempty, all ASCII digits. -/
def parseDigits : List Char → Option Nat
  | [] => none
  | [c] => if c.isDigit then some (c.toNat - 48) else none
  | c :: rest =>
    if c.isDigit then
      match parseDigits rest with
      | none => none
      | some n => some ((c.toNat - 48) * 10 ^ rest.length + n)
    else none

/-- Go `strconv.ParseInt(s, 10, 64)`: optional sign, one or more decimal
digits, value must fit in `int64`; `none` models a non-nil error. -/
def goParseInt64 (s : String) : Option Int :=
  match s.data with
  | [] => none
  | c :: rest =>
    let signAndDigits : Bool × List Char :=
      if c = '-' then (true, rest)
      else if c = '+' then (false, rest)
      else (false, c :: rest)
    match parseDigits signAndDigits.2 with
    | none => none
    | some n =>
      let v : Int := if signAndDigits.1 then -(n : Int) else (n : Int)
      if int64Min ≤ v ∧ v ≤ int64Max then some v else none

/-- `interface{}` values the repository stores in its field maps:
strings (extractor output), `int64` (the dump timestamp) and
`map[string]int64` (per-bucket aggregation results from `Dump`).
No code in the repository produces a `map[string]float64` value. -/
inductive GoVal : Type where
  | str (s : String)
  | i64 (n : Int)
  | mapI64 (m : List (String × Int))
deriving DecidableEq

/-- Go `s, ok := fields[k].(string)`: `some` iff the key is present with a
string value. -/
def lookupStr (fields : List (String × GoVal)) (k : String) : Option String :=
  match assocLookup fields k with
  | some (GoVal.str s) => some s
  | _ => none

/-! ## Aggregator (src/aggregator.go) -/

/-- `AggregatorConfig` from `aggregator.go`. -/
structure AggregatorConfig : Type where
  preMeasurment : String
  measurment : String
  tags : List String
  aggregations : List String
  target : String
  timestamp : String
deriving DecidableEq

/-- `Aggregator` from `aggregator.go`.  `buckets` maps a measurement value to
a map from tag signature to the accumulated samples. -/
structure Aggregator : Type where
  interval : Int
  cfg : AggregatorConfig
  buckets : List (String × List (String × List Int))
  postTime : Int
deriving DecidableEq

/-- `NewAggregator`. -/
def newAggregator (interval : Int) (cfg : AggregatorConfig) : Aggregator :=
  { interval := interval, cfg := cfg, buckets := [], postTime := 0 }

/-- `getSampleTime`: Go's `/` on `int64` truncates toward zero, `Int.tdiv`.
(Go would panic for `interval = 0`; every theorem below assumes a positive
interval, matching the spec's `Interval > 0`.) -/
def getSampleTime (ts interval : Int) : Int := Int.tdiv ts interval

/-- `Aggregator.IsDeadline`. -/
def Aggregator.isDeadline (p : Aggregator) (timestamp : Int) : Bool :=
  decide (p.postTime ≠ getSampleTime timestamp p.interval)

/-- Tag-signature construction inside `Record`: for each configured tag with a
string value in the fields, append `,tag=value`. -/
def buildTag (tags : List String) (fields : List (String × GoVal)) : String :=
  tags.foldl
    (fun acc tag =>
      match lookupStr fields tag with
      | none => acc
      | some s => acc ++ "," ++ tag ++ "=" ++ s)
    ""

/-- Append one sample to `buckets[bucketName][bucketTag]`, creating the inner
map / list as `Record` does. -/
def bucketsAppend (buckets : List (String × List (String × List Int)))
    (bucketName bucketTag : String) (value : Int) :
    List (String × List (String × List Int)) :=
  let inner := (assocLookup buckets bucketName).getD []
  let innerList := (assocLookup inner bucketTag).getD []
  mapSet buckets bucketName (mapSet inner bucketTag (innerList ++ [value]))

/-- `Aggregator.Record`.  `wallNow` stands for `time.Now().Unix()`.
Returns the resolved timestamp together with the updated aggregator. -/
def Aggregator.record (p : Aggregator) (wallNow : Int)
    (fields : List (String × GoVal)) : Int × Aggregator :=
  match lookupStr fields p.cfg.measurment with
  | none => (wallNow, p)
  | some bucketName =>
    let now : Int :=
      match lookupStr fields p.cfg.timestamp with
      | none => wallNow
      | some tstr =>
        match goParseInt64 tstr with
        | none => wallNow
        | some v => v
    if p.cfg.target = "" then (wallNow, p)
    else
      let bucketTag := buildTag p.cfg.tags fields
      match lookupStr fields p.cfg.target with
      | none => (now, p)
      | some aggValue =>
        let value : Int :=
          match goParseInt64 aggValue with
          | none => 1
          | some v => v
        (now, { p with buckets := bucketsAppend p.buckets bucketName bucketTag value })

/-! ### quickSort (src/aggregator.go lines 142-170)

The in-place hole-filling quicksort is transcribed positionally: the slice is
a `List Int`, indices are `Int` (they may legitimately reach `-1`), reads and
writes are bounds-checked (`none` = Go panic), the two inner `for` loops
become `scanDown` / `scanUp`, and the outer `for i <= j` loop becomes the
fuelled `partLoop` (the fuel passed by `quickSortAux` is proven sufficient
below). -/

/-- Bounds-checked read `values[i]` with an `int64` index. -/
def lgetI (v : List Int) (i : Int) : Option Int :=
  if h : 0 ≤ i ∧ i < (v.length : Int) then some (v.get ⟨i.toNat, by omega⟩) else none

/-- Bounds-checked write `values[i] = x` with an `int64` index. -/
def lsetI (v : List Int) (i : Int) (x : Int) : Option (List Int) :=
  if 0 ≤ i ∧ i < (v.length : Int) then some (v.set i.toNat x) else none

/-- Inner loop `for j >= p && values[j] >= temp { j-- }`.  The `Nat` fuel
keeps the recursion structural (so that concrete runs reduce in the kernel);
`partLoop` passes enough, as proven below. -/
def scanDown (v : List Int) (temp p : Int) : Nat → Int → Option Int
  | 0, _ => none
  | fuel + 1, j =>
    if p ≤ j then
      match lgetI v j with
      | none => none
      | some x => if temp ≤ x then scanDown v temp p fuel (j - 1) else some j
    else some j

/-- Inner loop `for i <= p && values[i] <= temp { i++ }`, fuelled like
`scanDown`. -/
def scanUp (v : List Int) (temp p : Int) : Nat → Int → Option Int
  | 0, _ => none
  | fuel + 1, i =>
    if i ≤ p then
      match lgetI v i with
      | none => none
      | some x => if x ≤ temp then scanUp v temp p fuel (i + 1) else some i
    else some i

/-- One conditional hole move `if j >= p { values[p] = values[j]; p = j }`
(also used for the symmetric `i` move). -/
def holeMove (v : List Int) (p src : Int) : Option (List Int × Int) :=
  match lgetI v src with
  | none => none
  | some x =>
    match lsetI v p x with
    | none => none
    | some v₁ => some (v₁, src)

/-- The outer `for i <= j` partition loop of `quickSort`, followed by the
final `values[p] = temp`.  Returns the updated slice and the pivot position. -/
def partLoop (temp : Int) : Nat → List Int → Int → Int → Int → Option (List Int × Int)
  | 0, _, _, _, _ => none
  | fuel + 1, v, p, i, j =>
    if i ≤ j then
      match scanDown v temp p ((j + 1 - p).toNat + 1) j with
      | none => none
      | some j₁ =>
        match (if p ≤ j₁ then holeMove v p j₁ else some (v, p)) with
        | none => none
        | some (v₁, p₁) =>
          match scanUp v₁ temp p₁ ((p₁ + 1 - i).toNat + 1) i with
          | none => none
          | some i₁ =>
            match (if i₁ ≤ p₁ then holeMove v₁ p₁ i₁ else some (v₁, p₁)) with
            | none => none
            | some (v₂, p₂) => partLoop temp fuel v₂ p₂ i₁ j₁
    else
      match lsetI v p temp with
      | none => none
      | some v₁ => some (v₁, p)

/-- `quickSort(values, left, right)` with explicit fuel for the recursion
(`quickSortTop` passes enough, as proven below). -/
def quickSortAux : Nat → List Int → Int → Int → Option (List Int)
  | 0, _, _, _ => none
  | fuel + 1, v, left, right =>
    match lgetI v left with
    | none => none
    | some temp =>
      match partLoop temp ((2 * (right - left)).toNat + 4) v left left right with
      | none => none
      | some (v₁, p) =>
        match (if 1 < p - left then quickSortAux fuel v₁ left (p - 1) else some v₁) with
        | none => none
        | some v₂ =>
          if 1 < right - p then quickSortAux fuel v₂ (p + 1) right else some v₂

/-- The call `quickSort(targetValue, 0, len(targetValue)-1)` made by
`getAggregation`. -/
def quickSortTop (l : List Int) : Option (List Int) :=
  quickSortAux (l.length + 1) l 0 ((l.length : Int) - 1)

/-! ### Correctness of the quickSort embedding

`geti v k` is the value at index `k` (`0` out of range, used only inside
propositions where the index is known to be in range). -/

def geti (v : List Int) (k : Int) : Int := (lgetI v k).getD 0

theorem lgetI_of_range (v : List Int) (k : Int) (h₁ : 0 ≤ k) (h₂ : k < (v.length : Int)) :
    lgetI v k = some (geti v k) := by
  unfold geti lgetI
  rw [dif_pos ⟨h₁, h₂⟩]
  rfl

theorem geti_eq_getElem (v : List Int) (k : Int) (h₁ : 0 ≤ k) (h₂ : k < (v.length : Int))
    (h₃ : k.toNat < v.length) : geti v k = v[k.toNat] := by
  unfold geti lgetI
  rw [dif_pos ⟨h₁, h₂⟩]
  rfl

theorem lsetI_of_range (v : List Int) (k x : Int) (h₁ : 0 ≤ k) (h₂ : k < (v.length : Int)) :
    lsetI v k x = some (v.set k.toNat x) := by
  unfold lsetI
  rw [if_pos ⟨h₁, h₂⟩]

theorem geti_set (v : List Int) (a k x : Int) (ha₁ : 0 ≤ a) (ha₂ : a < (v.length : Int)) :
    geti (v.set a.toNat x) k = if a = k then x else geti v k := by
  by_cases hk : 0 ≤ k ∧ k < (v.length : Int)
  · have hkn : k.toNat < v.length := by omega
    have hkn' : k.toNat < (v.set a.toNat x).length := by simp [List.length_set]; omega
    have han : a.toNat < v.length := by omega
    rw [geti_eq_getElem _ _ hk.1 (by simp [List.length_set]; exact hk.2) hkn',
      geti_eq_getElem _ _ hk.1 hk.2 hkn]
    by_cases he : a = k
    · subst he
      simp [List.getElem_set_self]
    · have : a.toNat ≠ k.toNat := by omega
      rw [List.getElem_set_ne this, if_neg he]
  · have he : ¬ a = k := by omega
    rw [if_neg he]
    unfold geti lgetI
    rw [dif_neg (by simp [List.length_set]; omega), dif_neg (by omega)]

theorem set_getElem_self_eq (l : List Int) (i : Nat) (h : i < l.length) :
    l.set i l[i] = l := by
  apply List.ext_getElem
  · simp
  · intro j h₁ h₂
    by_cases he : i = j
    · subst he
      simp
    · rw [List.getElem_set_ne he]

/-- A list with one position overwritten is a permutation of the overwritten
value consed onto the list with that position erased. -/
theorem set_perm_cons_eraseIdx (l : List Int) (i : Nat) (x : Int) (h : i < l.length) :
    (l.set i x).Perm (x :: l.eraseIdx i) := by
  induction l generalizing i with
  | nil => simp at h
  | cons hd tl ih =>
    cases i with
    | zero => simp [List.set, List.eraseIdx]
    | succ n =>
      simp only [List.set, List.eraseIdx]
      have hn : n < tl.length := by simpa using h
      exact ((ih n hn).cons hd).trans (List.Perm.swap x hd _)

theorem perm_cons_eraseIdx (l : List Int) (i : Nat) (h : i < l.length) :
    l.Perm (l[i] :: l.eraseIdx i) := by
  have := set_perm_cons_eraseIdx l i l[i] h
  rwa [set_getElem_self_eq l i h] at this

/-- The hole-move permutation fact: copying the value at `b` into the hole `a`
and then regarding `b` as the hole (finally filled with `temp`) permutes the
same multiset as filling the original hole with `temp`. -/
theorem holePerm (v : List Int) (a b temp : Int)
    (ha₁ : 0 ≤ a) (ha₂ : a < (v.length : Int)) (hb₁ : 0 ≤ b) (hb₂ : b < (v.length : Int)) :
    ((v.set a.toNat (geti v b)).set b.toNat temp).Perm (v.set a.toNat temp) := by
  by_cases he : a = b
  · subst he
    rw [List.set_set]
  · have haN : a.toNat < v.length := by omega
    have hbN : b.toNat < v.length := by omega
    have hne : a.toNat ≠ b.toNat := by omega
    have hbv : geti v b = v[b.toNat] := geti_eq_getElem v b hb₁ hb₂ hbN
    rw [hbv]
    -- both sides are permutations of temp :: v[b] :: (v minus positions a, b)
    have hbN' : b.toNat < (v.set a.toNat v[b.toNat]).length := by simpa using hbN
    have h₁ := set_perm_cons_eraseIdx (v.set a.toNat v[b.toNat]) b.toNat temp hbN'
    have h₂ := set_perm_cons_eraseIdx v a.toNat temp haN
    refine h₁.trans (List.Perm.trans ?_ h₂.symm)
    apply List.Perm.cons temp
    -- (v.set a v[b]).eraseIdx b ~ v.eraseIdx a : both drop one copy of v[a]
    -- and keep everything else, shown by counting occurrences
    refine (List.perm_iff_count).2 ?_
    intro c
    have key : ∀ (l : List Int) (i : Nat), (hi : i < l.length) →
        l.count c = (if l[i] = c then 1 else 0) + (l.eraseIdx i).count c := by
      intro l i hi
      have hc := (perm_cons_eraseIdx l i hi).count_eq c
      rw [hc, List.count_cons]
      by_cases he : l[i] = c
      · simp [he]
        omega
      · have hne₂ : ¬ (c == l[i]) = true := by simpa [beq_iff_eq] using fun h => he h.symm
        simp [he, hne₂]
    have hbN' : b.toNat < (v.set a.toNat v[b.toNat]).length := by simpa using hbN
    have h₁ := key v a.toNat haN
    have h₂ := key (v.set a.toNat v[b.toNat]) b.toNat hbN'
    have hAb : (v.set a.toNat v[b.toNat])[b.toNat] = v[b.toNat] := by
      rw [List.getElem_set_ne hne]
    rw [hAb] at h₂
    have h₃ : (v.set a.toNat v[b.toNat]).count c
        = (if v[b.toNat] = c then 1 else 0) + (v.eraseIdx a.toNat).count c := by
      have hc := (set_perm_cons_eraseIdx v a.toNat v[b.toNat] haN).count_eq c
      rw [hc, List.count_cons]
      by_cases he : v[b.toNat] = c
      · simp [he]
        omega
      · have hne₂ : ¬ (c == v[b.toNat]) = true := by simpa [beq_iff_eq] using fun h => he h.symm
        simp [he, hne₂]
    omega

theorem scanDown_spec_aux (v : List Int) (temp p : Int) :
    ∀ (n : Nat) (j : Int), (j + 1 - p).toNat < n → 0 ≤ p → p - 1 ≤ j → j < (v.length : Int) →
    ∃ j₁, scanDown v temp p n j = some j₁ ∧ p - 1 ≤ j₁ ∧ j₁ ≤ j ∧
      (∀ k, j₁ < k → k ≤ j → temp ≤ geti v k) ∧
      (p ≤ j₁ → geti v j₁ < temp) := by
  intro n
  induction n with
  | zero =>
    intro j hn hp hpj hj
    exact absurd hn (by omega)
  | succ n ih =>
    intro j hn hp hpj hj
    by_cases hjp : p ≤ j
    · have hread := lgetI_of_range v j (by omega) hj
      by_cases hcmp : temp ≤ geti v j
      · obtain ⟨j₁, heq, hlo, hhi, hge, hstop⟩ := ih (j - 1) (by omega) hp (by omega) (by omega)
        refine ⟨j₁, ?_, hlo, by omega, ?_, hstop⟩
        · unfold scanDown
          rw [if_pos hjp, hread]
          show (if temp ≤ geti v j then scanDown v temp p n (j - 1) else some j) = some j₁
          rw [if_pos hcmp]
          exact heq
        · intro k hk₁ hk₂
          by_cases hkj : k = j
          · subst hkj; exact hcmp
          · exact hge k hk₁ (by omega)
      · refine ⟨j, ?_, by omega, le_refl j, fun k h₁ h₂ => by omega, fun _ => by omega⟩
        unfold scanDown
        rw [if_pos hjp, hread]
        show (if temp ≤ geti v j then scanDown v temp p n (j - 1) else some j) = some j
        rw [if_neg hcmp]
    · refine ⟨j, ?_, by omega, le_refl j, fun k h₁ h₂ => by omega, fun h => absurd h hjp⟩
      unfold scanDown
      rw [if_neg hjp]

theorem scanUp_spec_aux (v : List Int) (temp p : Int) :
    ∀ (n : Nat) (i : Int), (p + 1 - i).toNat < n → 0 ≤ i → p < (v.length : Int) →
    ∃ i₁, scanUp v temp p n i = some i₁ ∧ i ≤ i₁ ∧ (i₁ ≤ p + 1 ∨ i₁ = i) ∧
      (∀ k, i ≤ k → k < i₁ → geti v k ≤ temp) ∧
      (i₁ ≤ p → temp < geti v i₁) := by
  intro n
  induction n with
  | zero =>
    intro i hn hi hp
    exact absurd hn (by omega)
  | succ n ih =>
    intro i hn hi hp
    by_cases hip : i ≤ p
    · have hread := lgetI_of_range v i hi (by omega)
      by_cases hcmp : geti v i ≤ temp
      · obtain ⟨i₁, heq, hlo, hhi, hle, hstop⟩ := ih (i + 1) (by omega) (by omega) hp
        refine ⟨i₁, ?_, by omega, ?_, ?_, hstop⟩
        · unfold scanUp
          rw [if_pos hip, hread]
          show (if geti v i ≤ temp then scanUp v temp p n (i + 1) else some i) = some i₁
          rw [if_pos hcmp]
          exact heq
        · rcases hhi with h | h
          · exact Or.inl h
          · exact Or.inl (by omega)
        · intro k hk₁ hk₂
          by_cases hki : k = i
          · subst hki; exact hcmp
          · exact hle k (by omega) hk₂
      · refine ⟨i, ?_, le_refl i, Or.inl (by omega), fun k h₁ h₂ => by omega, fun _ => by omega⟩
        unfold scanUp
        rw [if_pos hip, hread]
        show (if geti v i ≤ temp then scanUp v temp p n (i + 1) else some i) = some i
        rw [if_neg hcmp]
    · refine ⟨i, ?_, le_refl i, Or.inr rfl, fun k h₁ h₂ => by omega, fun h => absurd h hip⟩
      unfold scanUp
      rw [if_neg hip]

theorem holeMove_of_range (v : List Int) (p src : Int)
    (hp₁ : 0 ≤ p) (hp₂ : p < (v.length : Int)) (hs₁ : 0 ≤ src) (hs₂ : src < (v.length : Int)) :
    holeMove v p src = some (v.set p.toNat (geti v src), src) := by
  unfold holeMove
  rw [lgetI_of_range v src hs₁ hs₂]
  show (match lsetI v p (geti v src) with
    | none => none
    | some v₁ => some (v₁, src)) = _
  rw [lsetI_of_range v p (geti v src) hp₁ hp₂]

/-- Loop invariant of the partition loop, holding at the head of every
iteration of `partLoop`. -/
def PartInv (v₀ : List Int) (temp left right : Int) (v : List Int) (p i j : Int) : Prop :=
  v.length = v₀.length ∧
  left ≤ p ∧ p ≤ right ∧
  left ≤ i ∧ p ≤ i ∧
  j ≤ right ∧ p ≤ j + 1 ∧
  (j < i → j ≤ p) ∧
  (∀ k, left ≤ k → k < i → k ≠ p → geti v k ≤ temp) ∧
  (∀ k, j < k → k ≤ right → k ≠ p → temp ≤ geti v k) ∧
  (v.set p.toNat temp).Perm v₀ ∧
  (∀ k, k < left ∨ right < k → geti v k = geti v₀ k)

/-- Termination measure for the partition loop. -/
def measM (temp : Int) (v : List Int) (i j : Int) : Nat :=
  (2 * (j - i) + 2).toNat + (if geti v j < temp then 1 else 0)

/-- One iteration of the partition loop preserves the invariant and strictly
decreases the measure. -/
theorem partIter_inv (v₀ : List Int) (temp left right : Int)
    (hl : 0 ≤ left) (hr : right < (v₀.length : Int))
    (v : List Int) (p i j : Int)
    (hinv : PartInv v₀ temp left right v p i j) (hij : i ≤ j) :
    ∃ j₁ v₁ p₁ i₁ v₂ p₂,
      scanDown v temp p ((j + 1 - p).toNat + 1) j = some j₁ ∧
      (if p ≤ j₁ then holeMove v p j₁ else some (v, p)) = some (v₁, p₁) ∧
      scanUp v₁ temp p₁ ((p₁ + 1 - i).toNat + 1) i = some i₁ ∧
      (if i₁ ≤ p₁ then holeMove v₁ p₁ i₁ else some (v₁, p₁)) = some (v₂, p₂) ∧
      PartInv v₀ temp left right v₂ p₂ i₁ j₁ ∧
      measM temp v₂ i₁ j₁ < measM temp v i j := by
  obtain ⟨hlen, hpl, hpr, hil, hpi, hjr, hpj1, hI9, hI4, hI5, hI6, hI8⟩ := hinv
  have hlenv : (v.length : Int) = (v₀.length : Int) := by rw [hlen]
  obtain ⟨j₁, hscan, hd₁, hd₂, hd₃, hd₄⟩ :=
    scanDown_spec_aux v temp p ((j + 1 - p).toNat + 1) j (by omega) (by omega) (by omega)
      (by omega)
  by_cases hA : p ≤ j₁
  · -- phase-A move: values[p] = values[j]; p = j
    have hxj : geti v j₁ < temp := hd₄ hA
    have hmv₁ : holeMove v p j₁ = some (v.set p.toNat (geti v j₁), j₁) :=
      holeMove_of_range v p j₁ (by omega) (by omega) (by omega) (by omega)
    have hv₁len : (v.set p.toNat (geti v j₁)).length = v.length := List.length_set v p.toNat _
    have hgv₁ : ∀ k, geti (v.set p.toNat (geti v j₁)) k
        = if p = k then geti v j₁ else geti v k :=
      fun k => geti_set v p k (geti v j₁) (by omega) (by omega)
    obtain ⟨i₁, hscan2, hu₁, hu₂, hu₃, hu₄⟩ :=
      scanUp_spec_aux (v.set p.toNat (geti v j₁)) temp j₁ ((j₁ + 1 - i).toNat + 1) i
        (by omega) (by omega) (by rw [hv₁len]; omega)
    by_cases hB : i₁ ≤ j₁
    · -- phase-B move: values[p] = values[i]; p = i
      have hy : temp < geti (v.set p.toNat (geti v j₁)) i₁ := hu₄ hB
      have hmv₂ : holeMove (v.set p.toNat (geti v j₁)) j₁ i₁
          = some ((v.set p.toNat (geti v j₁)).set j₁.toNat
              (geti (v.set p.toNat (geti v j₁)) i₁), i₁) :=
        holeMove_of_range _ j₁ i₁ (by omega) (by rw [hv₁len]; omega) (by omega)
          (by rw [hv₁len]; omega)
      have hgv₂ : ∀ k, geti ((v.set p.toNat (geti v j₁)).set j₁.toNat
          (geti (v.set p.toNat (geti v j₁)) i₁)) k
          = if j₁ = k then geti (v.set p.toNat (geti v j₁)) i₁
            else geti (v.set p.toNat (geti v j₁)) k :=
        fun k => geti_set _ j₁ k _ (by omega) (by rw [hv₁len]; omega)
      refine ⟨j₁, _, j₁, i₁, _, i₁, hscan, by rw [if_pos hA]; exact hmv₁, hscan2,
        by rw [if_pos hB]; exact hmv₂, ⟨?_, ?_, ?_, ?_, ?_, ?_, ?_, ?_, ?_, ?_, ?_, ?_⟩, ?_⟩
      · simp [hlen]
      · omega
      · omega
      · omega
      · omega
      · omega
      · omega
      · omega
      · -- values left of the new cursor are at most the pivot
        intro k hk₁ hk₂ hk₃
        rw [hgv₂ k, if_neg (by omega : ¬ j₁ = k)]
        by_cases hki : i ≤ k
        · exact hu₃ k hki hk₂
        · rw [hgv₁ k]
          by_cases hkp : p = k
          · rw [if_pos hkp]; exact le_of_lt hxj
          · rw [if_neg hkp]
            exact hI4 k hk₁ (by omega) (fun he => hkp he.symm)
      · -- values right of the new scan position are at least the pivot
        intro k hk₁ hk₂ hk₃
        rw [hgv₂ k]
        by_cases hkj₁ : j₁ = k
        · rw [if_pos hkj₁]; exact le_of_lt hy
        · rw [if_neg hkj₁, hgv₁ k, if_neg (by omega : ¬ p = k)]
          by_cases hkj : k ≤ j
          · exact hd₃ k hk₁ hkj
          · exact hI5 k (by omega) hk₂ (by omega)
      · -- permutation invariant via the two hole moves
        have s₁ := holePerm (v.set p.toNat (geti v j₁)) j₁ i₁ temp (by omega)
          (by rw [hv₁len]; omega) (by omega) (by rw [hv₁len]; omega)
        have s₂ := holePerm v p j₁ temp (by omega) (by omega) (by omega) (by omega)
        exact s₁.trans (s₂.trans hI6)
      · intro k hk
        rw [hgv₂ k, if_neg (by omega : ¬ j₁ = k), hgv₁ k, if_neg (by omega : ¬ p = k)]
        exact hI8 k hk
      · -- the measure decreases
        by_cases hprog : j₁ = j ∧ i₁ = i
        · obtain ⟨he₁, he₂⟩ := hprog
          have hold : geti v j < temp := he₁ ▸ hxj
          have hnew : ¬ geti ((v.set p.toNat (geti v j₁)).set j₁.toNat
              (geti (v.set p.toNat (geti v j₁)) i₁)) j₁ < temp := by
            rw [hgv₂ j₁, if_pos rfl]; omega
          unfold measM
          rw [if_neg hnew, he₁, he₂, if_pos hold]
          omega
        · unfold measM
          obtain ⟨a, ha, ha1⟩ : ∃ a : Nat, (if geti ((v.set p.toNat (geti v j₁)).set j₁.toNat
              (geti (v.set p.toNat (geti v j₁)) i₁)) j₁ < temp then (1:Nat) else 0) = a ∧ a ≤ 1 :=
            ⟨_, rfl, by split <;> omega⟩
          obtain ⟨b, hb, hb1⟩ : ∃ b : Nat,
              (if geti v j < temp then (1:Nat) else 0) = b ∧ b ≤ 1 :=
            ⟨_, rfl, by split <;> omega⟩
          rw [ha, hb]
          have hprog2 : j₁ < j ∨ i < i₁ := by
            by_cases h : j₁ = j
            · by_cases h₂ : i₁ = i
              · exact absurd ⟨h, h₂⟩ hprog
              · exact Or.inr (by omega)
            · exact Or.inl (by omega)
          omega
    · -- phase-B skip: i has run past the hole
      refine ⟨j₁, _, j₁, i₁, _, j₁, hscan, by rw [if_pos hA]; exact hmv₁, hscan2,
        by rw [if_neg hB], ⟨?_, ?_, ?_, ?_, ?_, ?_, ?_, ?_, ?_, ?_, ?_, ?_⟩, ?_⟩
      · simp [hlen]
      · omega
      · omega
      · omega
      · omega
      · omega
      · omega
      · omega
      · intro k hk₁ hk₂ hk₃
        by_cases hki : i ≤ k
        · exact hu₃ k hki hk₂
        · rw [hgv₁ k]
          by_cases hkp : p = k
          · rw [if_pos hkp]; exact le_of_lt hxj
          · rw [if_neg hkp]
            exact hI4 k hk₁ (by omega) (fun he => hkp he.symm)
      · intro k hk₁ hk₂ hk₃
        rw [hgv₁ k, if_neg (by omega : ¬ p = k)]
        by_cases hkj : k ≤ j
        · exact hd₃ k hk₁ hkj
        · exact hI5 k (by omega) hk₂ (by omega)
      · have s₂ := holePerm v p j₁ temp (by omega) (by omega) (by omega) (by omega)
        exact s₂.trans hI6
      · intro k hk
        rw [hgv₁ k, if_neg (by omega : ¬ p = k)]
        exact hI8 k hk
      · unfold measM
        obtain ⟨a, ha, ha1⟩ : ∃ a : Nat, (if geti (v.set p.toNat (geti v j₁)) j₁ < temp
            then (1:Nat) else 0) = a ∧ a ≤ 1 := ⟨_, rfl, by split <;> omega⟩
        obtain ⟨b, hb, hb1⟩ : ∃ b : Nat,
            (if geti v j < temp then (1:Nat) else 0) = b ∧ b ≤ 1 :=
          ⟨_, rfl, by split <;> omega⟩
        rw [ha, hb]
        have hprog2 : j₁ < j ∨ i < i₁ := by
          rcases Decidable.em (j₁ = j) with h | h
          · exact Or.inr (by omega)
          · exact Or.inl (by omega)
        omega
  · -- phase-A skip: the scan ran just below the hole, j₁ = p - 1
    have hj₁p : j₁ = p - 1 := by omega
    obtain ⟨i₁, hscan2, hu₁, hu₂, hu₃, hu₄⟩ :=
      scanUp_spec_aux v temp p ((p + 1 - i).toNat + 1) i (by omega) (by omega) (by omega)
    by_cases hB : i₁ ≤ p
    · -- phase-B move into the untouched hole
      have hy : temp < geti v i₁ := hu₄ hB
      have hmv₂ : holeMove v p i₁ = some (v.set p.toNat (geti v i₁), i₁) :=
        holeMove_of_range v p i₁ (by omega) (by omega) (by omega) (by omega)
      have hgv₂ : ∀ k, geti (v.set p.toNat (geti v i₁)) k
          = if p = k then geti v i₁ else geti v k :=
        fun k => geti_set v p k _ (by omega) (by omega)
      refine ⟨j₁, v, p, i₁, _, i₁, hscan, by rw [if_neg hA], hscan2,
        by rw [if_pos hB]; exact hmv₂, ⟨?_, ?_, ?_, ?_, ?_, ?_, ?_, ?_, ?_, ?_, ?_, ?_⟩, ?_⟩
      · simp [hlen]
      · omega
      · omega
      · omega
      · omega
      · omega
      · omega
      · omega
      · intro k hk₁ hk₂ hk₃
        rw [hgv₂ k]
        by_cases hkp : p = k
        · exact absurd hkp (by omega)
        · rw [if_neg hkp]
          by_cases hki : i ≤ k
          · exact hu₃ k hki hk₂
          · exact hI4 k hk₁ (by omega) (fun he => hkp he.symm)
      · intro k hk₁ hk₂ hk₃
        rw [hgv₂ k]
        by_cases hkp : p = k
        · rw [if_pos hkp]; exact le_of_lt hy
        · rw [if_neg hkp]
          by_cases hkj : k ≤ j
          · exact hd₃ k hk₁ hkj
          · exact hI5 k (by omega) hk₂ (fun he => hkp he.symm)
      · have s₂ := holePerm v p i₁ temp (by omega) (by omega) (by omega) (by omega)
        exact s₂.trans hI6
      · intro k hk
        rw [hgv₂ k, if_neg (by omega : ¬ p = k)]
        exact hI8 k hk
      · unfold measM
        obtain ⟨a, ha, ha1⟩ : ∃ a : Nat, (if geti (v.set p.toNat (geti v i₁)) j₁ < temp
            then (1:Nat) else 0) = a ∧ a ≤ 1 := ⟨_, rfl, by split <;> omega⟩
        obtain ⟨b, hb, hb1⟩ : ∃ b : Nat,
            (if geti v j < temp then (1:Nat) else 0) = b ∧ b ≤ 1 :=
          ⟨_, rfl, by split <;> omega⟩
        rw [ha, hb]
        omega
    · -- phase-B skip as well: nothing moved
      refine ⟨j₁, v, p, i₁, v, p, hscan, by rw [if_neg hA], hscan2,
        by rw [if_neg hB], ⟨?_, ?_, ?_, ?_, ?_, ?_, ?_, ?_, ?_, ?_, ?_, ?_⟩, ?_⟩
      · exact hlen
      · omega
      · omega
      · omega
      · omega
      · omega
      · omega
      · omega
      · intro k hk₁ hk₂ hk₃
        by_cases hki : i ≤ k
        · exact hu₃ k hki hk₂
        · exact hI4 k hk₁ (by omega) hk₃
      · intro k hk₁ hk₂ hk₃
        by_cases hkj : k ≤ j
        · exact hd₃ k hk₁ hkj
        · exact hI5 k (by omega) hk₂ hk₃
      · exact hI6
      · exact hI8
      · unfold measM
        obtain ⟨a, ha, ha1⟩ : ∃ a : Nat,
            (if geti v j₁ < temp then (1:Nat) else 0) = a ∧ a ≤ 1 :=
          ⟨_, rfl, by split <;> omega⟩
        obtain ⟨b, hb, hb1⟩ : ∃ b : Nat,
            (if geti v j < temp then (1:Nat) else 0) = b ∧ b ≤ 1 :=
          ⟨_, rfl, by split <;> omega⟩
        rw [ha, hb]
        omega

theorem partLoop_eq_loop (temp : Int) (fuel : Nat) (v : List Int) (p i j j₁ : Int)
    (v₁ : List Int) (p₁ i₁ : Int) (v₂ : List Int) (p₂ : Int)
    (hij : i ≤ j)
    (hscan : scanDown v temp p ((j + 1 - p).toNat + 1) j = some j₁)
    (hstep1 : (if p ≤ j₁ then holeMove v p j₁ else some (v, p)) = some (v₁, p₁))
    (hscan2 : scanUp v₁ temp p₁ ((p₁ + 1 - i).toNat + 1) i = some i₁)
    (hstep2 : (if i₁ ≤ p₁ then holeMove v₁ p₁ i₁ else some (v₁, p₁)) = some (v₂, p₂)) :
    partLoop temp (fuel + 1) v p i j = partLoop temp fuel v₂ p₂ i₁ j₁ := by
  unfold partLoop
  rw [if_pos hij]
  simp only [hscan, hstep1, hscan2, hstep2]
  rw [partLoop.eq_def]

theorem partLoop_eq_exit (temp : Int) (fuel : Nat) (v : List Int) (p i j : Int)
    (hij : ¬ i ≤ j) (hp₁ : 0 ≤ p) (hp₂ : p < (v.length : Int)) :
    partLoop temp (fuel + 1) v p i j = some (v.set p.toNat temp, p) := by
  unfold partLoop
  rw [if_neg hij, lsetI_of_range v p temp hp₁ hp₂]

/-- Full specification of the partition loop: given the invariant and enough
fuel, it pivots the slice around `temp`. -/
theorem partLoop_spec (v₀ : List Int) (temp left right : Int)
    (hl : 0 ≤ left) (hr : right < (v₀.length : Int)) :
    ∀ (fuel : Nat) (v : List Int) (p i j : Int),
    PartInv v₀ temp left right v p i j → measM temp v i j < fuel →
    ∃ w q, partLoop temp fuel v p i j = some (w, q) ∧
      left ≤ q ∧ q ≤ right ∧ w.Perm v₀ ∧ w.length = v₀.length ∧
      (∀ k, k < left ∨ right < k → geti w k = geti v₀ k) ∧
      geti w q = temp ∧
      (∀ k, left ≤ k → k < q → geti w k ≤ temp) ∧
      (∀ k, q < k → k ≤ right → temp ≤ geti w k) := by
  intro fuel
  induction fuel with
  | zero => intro v p i j _ hm; exact absurd hm (by omega)
  | succ fuel ih =>
    intro v p i j hinv hm
    by_cases hij : i ≤ j
    · obtain ⟨j₁, v₁, p₁, i₁, v₂, p₂, hscan, hstep1, hscan2, hstep2, hinv₂, hmeas⟩ :=
        partIter_inv v₀ temp left right hl hr v p i j hinv hij
      obtain ⟨w, q, heq, hrest⟩ := ih v₂ p₂ i₁ j₁ hinv₂ (by omega)
      exact ⟨w, q, by
        rw [partLoop_eq_loop temp fuel v p i j j₁ v₁ p₁ i₁ v₂ p₂ hij hscan hstep1 hscan2 hstep2]
        exact heq, hrest⟩
    · obtain ⟨hlen, hpl, hpr, hil, hpi, hjr, hpj1, hI9, hI4, hI5, hI6, hI8⟩ := hinv
      have hexit := partLoop_eq_exit temp fuel v p i j hij (by omega)
        (by rw [hlen]; omega)
      have hgv : ∀ k, geti (v.set p.toNat temp) k = if p = k then temp else geti v k :=
        fun k => geti_set v p k temp (by omega) (by rw [hlen]; omega)
      refine ⟨v.set p.toNat temp, p, hexit, by omega, by omega, hI6,
        by simp [hlen], ?_, ?_, ?_, ?_⟩
      · intro k hk
        rw [hgv k, if_neg (by omega)]
        exact hI8 k hk
      · rw [hgv p, if_pos rfl]
      · intro k hk₁ hk₂
        rw [hgv k, if_neg (by omega)]
        exact hI4 k hk₁ (by omega) (by omega)
      · intro k hk₁ hk₂
        have hjp : j ≤ p := hI9 (by omega)
        rw [hgv k, if_neg (by omega)]
        exact hI5 k (by omega) hk₂ (by omega)

/-- The sub-slice `v[a..b]` (inclusive), as a list. -/
def seg (v : List Int) (a b : Int) : List Int :=
  (v.drop a.toNat).take (b + 1 - a).toNat

theorem seg_length (v : List Int) (a b : Int) (h₀ : 0 ≤ a) (ha : a ≤ b + 1)
    (hb : b < (v.length : Int)) : (seg v a b).length = (b + 1 - a).toNat := by
  unfold seg
  rw [List.length_take, List.length_drop]
  omega

theorem seg_getElem (v : List Int) (a b : Int) (h₀ : 0 ≤ a) (hb : b < (v.length : Int))
    (m : Nat) (hm : m < (seg v a b).length) :
    (seg v a b)[m] = geti v (a + m) := by
  unfold seg at hm ⊢
  rw [List.getElem_take, List.getElem_drop]
  have hmono : m < (b + 1 - a).toNat := by
    have := List.length_take_le (b + 1 - a).toNat (v.drop a.toNat)
    simp [List.length_take, List.length_drop] at hm
    omega
  have hrange : a.toNat + m < v.length := by
    simp [List.length_take, List.length_drop] at hm
    omega
  rw [geti_eq_getElem v (a + m) (by omega) (by omega) (by omega)]
  congr 1
  omega

theorem geti_mem_seg (v : List Int) (a b k : Int) (h₀ : 0 ≤ a) (hak : a ≤ k) (hkb : k ≤ b)
    (hb : b < (v.length : Int)) : geti v k ∈ seg v a b := by
  have hlen := seg_length v a b h₀ (by omega) hb
  have hm : (k - a).toNat < (seg v a b).length := by omega
  have := seg_getElem v a b h₀ hb (k - a).toNat hm
  have hka : a + ((k - a).toNat : Int) = k := by omega
  rw [hka] at this
  exact this ▸ List.getElem_mem hm

theorem mem_seg_exists (v : List Int) (a b : Int) (x : Int) (h₀ : 0 ≤ a)
    (hb : b < (v.length : Int)) (hx : x ∈ seg v a b) :
    ∃ k, a ≤ k ∧ k ≤ b ∧ geti v k = x := by
  obtain ⟨m, hm, hgm⟩ := List.getElem_of_mem hx
  rw [seg_getElem v a b h₀ hb m hm] at hgm
  have hlen : (seg v a b).length ≤ (b + 1 - a).toNat := by
    unfold seg
    rw [List.length_take]
    omega
  exact ⟨a + m, by omega, by omega, hgm⟩

theorem seg_decompose (v : List Int) (a b : Int) (h₀ : 0 ≤ a) (ha : a ≤ b + 1)
    (hb : b < (v.length : Int)) :
    v = v.take a.toNat ++ seg v a b ++ v.drop (b + 1).toNat := by
  unfold seg
  rw [List.append_assoc]
  have h₁ : (v.drop a.toNat).take (b + 1 - a).toNat ++ v.drop (b + 1).toNat
      = v.drop a.toNat := by
    have h₂ : v.drop (b + 1).toNat = (v.drop a.toNat).drop (b + 1 - a).toNat := by
      rw [List.drop_drop]
      congr 1
      omega
    rw [h₂, List.take_append_drop]
  rw [h₁, List.take_append_drop]

theorem seg_perm_of_perm_outside (v₁ v₂ : List Int) (a b : Int)
    (h₀ : 0 ≤ a) (ha : a ≤ b + 1) (hb : b < (v₂.length : Int))
    (hlen : v₁.length = v₂.length) (hperm : v₁.Perm v₂)
    (hout : ∀ k, k < a ∨ b < k → geti v₁ k = geti v₂ k) :
    (seg v₁ a b).Perm (seg v₂ a b) := by
  have hb₁ : b < (v₁.length : Int) := by rw [hlen]; exact hb
  have htake : v₁.take a.toNat = v₂.take a.toNat := by
    apply List.ext_getElem
    · simp [List.length_take, hlen]
    · intro m hm₁ hm₂
      rw [List.getElem_take, List.getElem_take]
      have hma : (m : Int) < a := by
        simp [List.length_take] at hm₁
        omega
      have e := hout m (Or.inl hma)
      rw [geti_eq_getElem v₁ m (by omega) (by simp [List.length_take] at hm₁; omega)
            (by simp [List.length_take] at hm₁; omega),
          geti_eq_getElem v₂ m (by omega) (by simp [List.length_take] at hm₂; omega)
            (by simp [List.length_take] at hm₂; omega)] at e
      simpa using e
  have hdrop : v₁.drop (b + 1).toNat = v₂.drop (b + 1).toNat := by
    apply List.ext_getElem
    · simp [List.length_drop, hlen]
    · intro m hm₁ hm₂
      rw [List.getElem_drop, List.getElem_drop]
      have hm₁' : (b + 1).toNat + m < v₁.length := by
        simp [List.length_drop] at hm₁
        omega
      have hm₂' : (b + 1).toNat + m < v₂.length := by
        simp [List.length_drop] at hm₂
        omega
      have e := hout ((b + 1).toNat + m) (Or.inr (by omega))
      rw [geti_eq_getElem v₁ _ (by omega) (by omega) (by omega),
          geti_eq_getElem v₂ _ (by omega) (by omega) (by omega)] at e
      convert e using 2
  have hd₁ := seg_decompose v₁ a b h₀ ha hb₁
  have hd₂ := seg_decompose v₂ a b h₀ ha hb
  have hperm' := hperm
  rw [hd₁, hd₂, htake, hdrop] at hperm'
  rw [List.append_assoc, List.append_assoc] at hperm'
  have h₁ := (List.perm_append_left_iff (v₂.take a.toNat)).1 hperm'
  exact (List.perm_append_right_iff (v₂.drop (b + 1).toNat)).1 h₁

/-- Transfer a pointwise bound on a segment across a permutation that fixes
everything outside the segment. -/
theorem seg_bound_transfer (v₁ v₂ : List Int) (a b : Int) (P : Int → Prop)
    (h₀ : 0 ≤ a) (ha : a ≤ b + 1) (hb : b < (v₂.length : Int))
    (hlen : v₁.length = v₂.length) (hperm : v₁.Perm v₂)
    (hout : ∀ k, k < a ∨ b < k → geti v₁ k = geti v₂ k)
    (hall : ∀ k, a ≤ k → k ≤ b → P (geti v₂ k)) :
    ∀ k, a ≤ k → k ≤ b → P (geti v₁ k) := by
  intro k hak hkb
  have hb₁ : b < (v₁.length : Int) := by rw [hlen]; exact hb
  have hmem : geti v₁ k ∈ seg v₁ a b := geti_mem_seg v₁ a b k h₀ hak hkb hb₁
  have hsp := seg_perm_of_perm_outside v₁ v₂ a b h₀ ha hb hlen hperm hout
  have hmem₂ : geti v₁ k ∈ seg v₂ a b := hsp.mem_iff.1 hmem
  obtain ⟨k₂, hk₂a, hk₂b, he⟩ := mem_seg_exists v₂ a b (geti v₁ k) h₀ hb hmem₂
  rw [← he]
  exact hall k₂ hk₂a hk₂b

/-- Full functional specification of the transcription of `quickSort`:
with enough fuel it succeeds, permutes the slice, touches only `[left, right]`,
and leaves that sub-slice sorted ascending. -/
theorem quickSortAux_spec : ∀ (fuel : Nat) (v : List Int) (left right : Int),
    0 ≤ left → left ≤ right → right < (v.length : Int) → (right - left).toNat + 1 ≤ fuel →
    ∃ w, quickSortAux fuel v left right = some w ∧ w.Perm v ∧ w.length = v.length ∧
      (∀ k, k < left ∨ right < k → geti w k = geti v k) ∧
      (∀ k₁ k₂, left ≤ k₁ → k₁ ≤ k₂ → k₂ ≤ right → geti w k₁ ≤ geti w k₂) := by
  intro fuel
  induction fuel with
  | zero => intro v left right _ _ _ hfuel; omega
  | succ fuel ih =>
    intro v left right hl hlr hr hfuel
    have hread := lgetI_of_range v left (by omega) (by omega)
    have hset : v.set left.toNat (geti v left) = v := by
      rw [geti_eq_getElem v left (by omega) (by omega) (by omega)]
      exact set_getElem_self_eq v left.toNat (by omega)
    have hinv : PartInv v (geti v left) left right v left left right := by
      refine ⟨rfl, le_refl _, by omega, le_refl _, le_refl _, le_refl _, by omega,
        fun h => absurd h (by omega), fun k h₁ h₂ _ => absurd h₂ (by omega),
        fun k h₁ h₂ _ => absurd h₁ (by omega), ?_, fun k _ => rfl⟩
      rw [hset]
    have hmb : measM (geti v left) v left right < (2 * (right - left)).toNat + 4 := by
      unfold measM
      obtain ⟨a, haa, ha1⟩ : ∃ a : Nat,
          (if geti v right < geti v left then (1:Nat) else 0) = a ∧ a ≤ 1 :=
        ⟨_, rfl, by split <;> omega⟩
      rw [haa]
      omega
    obtain ⟨w₁, q, hpart, hql, hqr, hwperm, hwlen, hwout, hwq, hwlow, hwhigh⟩ :=
      partLoop_spec v (geti v left) left right hl hr ((2 * (right - left)).toNat + 4)
        v left left right hinv hmb
    have hlow : ∃ w₂, (if 1 < q - left then quickSortAux fuel w₁ left (q - 1)
        else some w₁) = some w₂
        ∧ w₂.Perm w₁ ∧ w₂.length = w₁.length
        ∧ (∀ k, k < left ∨ q - 1 < k → geti w₂ k = geti w₁ k)
        ∧ (∀ k₁ k₂, left ≤ k₁ → k₁ ≤ k₂ → k₂ ≤ q - 1 → geti w₂ k₁ ≤ geti w₂ k₂) := by
      by_cases hL : 1 < q - left
      · obtain ⟨w₂, he, hp, hl2, ho, hs⟩ := ih w₁ left (q - 1) (by omega) (by omega)
          (by rw [hwlen]; omega) (by omega)
        exact ⟨w₂, by rw [if_pos hL]; exact he, hp, hl2, ho, hs⟩
      · refine ⟨w₁, by rw [if_neg hL], List.Perm.refl _, rfl, fun k _ => rfl, ?_⟩
        intro k₁ k₂ h₁ h₂ h₃
        have he : k₁ = k₂ := by omega
        rw [he]
    obtain ⟨w₂, hlowEq, hperm₂, hlen₂, hout₂, hsort₂⟩ := hlow
    have hhigh : ∃ w₃, (if 1 < right - q then quickSortAux fuel w₂ (q + 1) right
        else some w₂) = some w₃
        ∧ w₃.Perm w₂ ∧ w₃.length = w₂.length
        ∧ (∀ k, k < q + 1 ∨ right < k → geti w₃ k = geti w₂ k)
        ∧ (∀ k₁ k₂, q + 1 ≤ k₁ → k₁ ≤ k₂ → k₂ ≤ right → geti w₃ k₁ ≤ geti w₃ k₂) := by
      by_cases hR : 1 < right - q
      · obtain ⟨w₃, he, hp, hl3, ho, hs⟩ := ih w₂ (q + 1) right (by omega) (by omega)
          (by rw [hlen₂, hwlen]; omega) (by omega)
        exact ⟨w₃, by rw [if_pos hR]; exact he, hp, hl3, ho, hs⟩
      · refine ⟨w₂, by rw [if_neg hR], List.Perm.refl _, rfl, fun k _ => rfl, ?_⟩
        intro k₁ k₂ h₁ h₂ h₃
        have he : k₁ = k₂ := by omega
        rw [he]
    obtain ⟨w₃, hhighEq, hperm₃, hlen₃, hout₃, hsort₃⟩ := hhigh
    refine ⟨w₃, ?_, (hperm₃.trans hperm₂).trans hwperm,
      by rw [hlen₃, hlen₂, hwlen], ?_, ?_⟩
    · -- evaluate quickSortAux one step
      unfold quickSortAux
      rw [hread]
      simp only [hpart, hlowEq, hhighEq]
    · intro k hk
      have e₃ : geti w₃ k = geti w₂ k := by
        rcases hk with hk | hk
        · exact hout₃ k (Or.inl (by omega))
        · exact hout₃ k (Or.inr hk)
      have e₂ : geti w₂ k = geti w₁ k := by
        rcases hk with hk | hk
        · exact hout₂ k (Or.inl hk)
        · exact hout₂ k (Or.inr (by omega))
      rw [e₃, e₂]
      exact hwout k hk
    · -- sortedness of the whole segment
      have hq₃ : geti w₃ q = geti v left := by
        rw [hout₃ q (Or.inl (by omega)), hout₂ q (Or.inr (by omega)), hwq]
      have hlow₂ : ∀ k, left ≤ k → k ≤ q - 1 → geti w₂ k ≤ geti v left := by
        refine seg_bound_transfer w₂ w₁ left (q - 1) (fun x => x ≤ geti v left)
          (by omega) (by omega) (by rw [hwlen]; omega) hlen₂ hperm₂ hout₂ ?_
        intro k h₁ h₂
        exact hwlow k h₁ (by omega)
      have hlow₃ : ∀ k, left ≤ k → k ≤ q - 1 → geti w₃ k ≤ geti v left := by
        intro k h₁ h₂
        rw [hout₃ k (Or.inl (by omega))]
        exact hlow₂ k h₁ h₂
      have hhigh₂ : ∀ k, q + 1 ≤ k → k ≤ right → geti v left ≤ geti w₂ k := by
        intro k h₁ h₂
        rw [hout₂ k (Or.inr (by omega))]
        exact hwhigh k (by omega) h₂
      have hhigh₃ : ∀ k, q + 1 ≤ k → k ≤ right → geti v left ≤ geti w₃ k := by
        refine seg_bound_transfer w₃ w₂ (q + 1) right (fun x => geti v left ≤ x)
          (by omega) (by omega) (by rw [hlen₂, hwlen]; omega) hlen₃ hperm₃ hout₃ hhigh₂
      have hsortLow₃ : ∀ k₁ k₂, left ≤ k₁ → k₁ ≤ k₂ → k₂ ≤ q - 1 →
          geti w₃ k₁ ≤ geti w₃ k₂ := by
        intro k₁ k₂ h₁ h₂ h₃
        rw [hout₃ k₁ (Or.inl (by omega)), hout₃ k₂ (Or.inl (by omega))]
        exact hsort₂ k₁ k₂ h₁ h₂ h₃
      intro k₁ k₂ h₁ h₂ h₃
      rcases lt_trichotomy k₁ q with hk₁ | hk₁ | hk₁
      · rcases lt_trichotomy k₂ q with hk₂ | hk₂ | hk₂
        · exact hsortLow₃ k₁ k₂ h₁ h₂ (by omega)
        · rw [hk₂, hq₃]
          exact hlow₃ k₁ h₁ (by omega)
        · exact le_trans (hlow₃ k₁ h₁ (by omega)) (hhigh₃ k₂ (by omega) h₃)
      · rcases lt_trichotomy k₂ q with hk₂ | hk₂ | hk₂
        · omega
        · exact le_of_eq (by rw [hk₁, hk₂])
        · rw [hk₁, hq₃]
          exact hhigh₃ k₂ (by omega) h₃
      · exact hsort₃ k₁ k₂ (by omega) h₂ h₃

/-- The percentile index computation `index := cnt*proportion/100 - 1`,
clamped to `0` when negative; the multiplication wraps as Go `int64`
arithmetic does. -/
def percentileIndex (cnt proportion : Int) : Int :=
  let rawIndex := (wrap64 (cnt * proportion)).tdiv 100 - 1
  if rawIndex < 0 then 0 else rawIndex

/-- The `switch`/`default` body of `getAggregation` for one aggregation name,
acting on the accumulated result map.  `sorted` is the slice after the
in-place `quickSort`; `cnt`, `sum`, `avg`, `minV`, `maxV` are the running
accumulators.  `none` models the `panic(aggregations[i])` on a malformed
`p<N>` name and the out-of-range indexing `targetValue[index]`
(an empty name would panic on `aggregations[i][0]`). -/
def aggStep (sorted : List Int) (cnt sum avg minV maxV : Int)
    (res : List (String × Int)) (name : String) : Option (List (String × Int)) :=
  if name = "cnt" then some (mapSet res "cnt" cnt)
  else if name = "sum" then some (mapSet res "sum" sum)
  else if name = "avg" then some (mapSet res "avg" avg)
  else if name = "min" then some (mapSet res "min" minV)
  else if name = "max" then some (mapSet res "max" maxV)
  else
    match name.data with
    | [] => none
    | c :: restChars =>
      if c = 'p' then
        match goParseInt64 (String.mk restChars) with
        | none => none
        | some proportion =>
          match lgetI sorted (percentileIndex cnt proportion) with
          | none => none
          | some percentile => some (mapSet res name percentile)
      else some res

/-- Fold of `aggStep` over the aggregation names. -/
def aggFold (sorted : List Int) (cnt sum avg minV maxV : Int) :
    List String → List (String × Int) → Option (List (String × Int))
  | [], res => some res
  | name :: rest, res =>
    match aggStep sorted cnt sum avg minV maxV res name with
    | none => none
    | some res₁ => aggFold sorted cnt sum avg minV maxV rest res₁

/-- `getAggregation`.  Mirrors the statement order of the source: the running
accumulators are initialised (min/max from `targetValue[0]` when non-empty),
the slice is sorted in place (this read of `values[left]` panics on an empty
slice), `sum`/`min`/`max` are accumulated over the sorted slice with
wrap-around addition, `avg = sum / cnt` (a division by zero for `cnt = 0`),
and finally the requested aggregations are collected. -/
def getAggregation (targetValue : List Int) (aggregations : List String) :
    Option (List (String × Int)) :=
  let cnt : Int := (targetValue.length : Int)
  let mm : Int × Int :=
    match targetValue with
    | [] => (0, 0)
    | x :: _ => (x, x)
  match quickSortTop targetValue with
  | none => none
  | some sorted =>
    let sum := sorted.foldl (fun a b => wrap64 (a + b)) 0
    let maxV := sorted.foldl (fun m x => if m < x then x else m) mm.2
    let minV := sorted.foldl (fun m x => if x < m then x else m) mm.1
    if cnt = 0 then none
    else
      let avg := Int.tdiv sum cnt
      aggFold sorted cnt sum avg minV maxV aggregations []

/-- The double loop of `Dump` over `buckets`, accumulating the `fields` map.
`none` propagates a `getAggregation` panic. -/
def dumpInner (aggregations : List String) (bucketName : String) :
    List (String × List Int) → List (String × GoVal) → Option (List (String × GoVal))
  | [], fields => some fields
  | (bucketTag, targetValue) :: rest, fields =>
    match getAggregation targetValue aggregations with
    | none => none
    | some res =>
      dumpInner aggregations bucketName rest
        (mapSet fields (bucketName ++ bucketTag) (GoVal.mapI64 res))

/-- Outer loop of `Dump` over the bucket names. -/
def dumpBuckets (aggregations : List String) :
    List (String × List (String × List Int)) → List (String × GoVal) →
    Option (List (String × GoVal))
  | [], fields => some fields
  | (bucketName, inner) :: rest, fields =>
    match dumpInner aggregations bucketName inner fields with
    | none => none
    | some fields₁ => dumpBuckets aggregations rest fields₁

/-- `Aggregator.Dump`: aggregate every bucket, attach the timestamp, advance
`postTime` and clear the buckets. -/
def Aggregator.dump (p : Aggregator) (timestamp : Int) :
    Option (List (String × GoVal) × Aggregator) :=
  match dumpBuckets p.cfg.aggregations p.buckets [] with
  | none => none
  | some fields =>
    some (mapSet fields "timestamp" (GoVal.i64 timestamp),
      { p with postTime := getSampleTime timestamp p.interval, buckets := [] })

/-- On a non-empty slice the transcribed `quickSort` succeeds and produces the
ascending sort of its input (the unique sorted permutation). -/
theorem quickSortTop_eq_insertionSort (l : List Int) (hne : l ≠ []) :
    quickSortTop l = some (List.insertionSort (· ≤ ·) l) := by
  have hlen : 1 ≤ l.length := by
    cases l with
    | nil => exact absurd rfl hne
    | cons a t => simp
  obtain ⟨w, heq, hperm, hwlen, _, hsorted⟩ :=
    quickSortAux_spec (l.length + 1) l 0 ((l.length : Int) - 1) (le_refl 0)
      (by omega) (by omega) (by omega)
  unfold quickSortTop
  rw [heq]
  congr 1
  have hwsorted : List.Sorted (· ≤ ·) w := by
    rw [List.Sorted, List.pairwise_iff_getElem]
    intro a b ha hb hab
    have := hsorted a b (by omega) (by omega) (by rw [hwlen] at hb; omega)
    rwa [geti_eq_getElem w a (by omega) (by omega) ha,
      geti_eq_getElem w b (by omega) (by omega) hb] at this
  exact List.eq_of_perm_of_sorted
    (hperm.trans (List.perm_insertionSort (· ≤ ·) l).symm) hwsorted
    (List.sorted_insertionSort (· ≤ ·) l)

theorem percentileIndex_eq_of_no_overflow (cnt proportion : Int)
    (h₁ : int64Min ≤ cnt * proportion) (h₂ : cnt * proportion ≤ int64Max) :
    percentileIndex cnt proportion = max 0 (Int.tdiv (cnt * proportion) 100 - 1) := by
  unfold percentileIndex
  rw [wrap64_eq_self _ h₁ h₂]
  simp only [max_def]
  split <;> split <;> omega

theorem length_ne_zero_int (l : List Int) (hne : l ≠ []) : ¬ ((l.length : Int) = 0) := by
  cases l with
  | nil => exact absurd rfl hne
  | cons a t => simp only [List.length_cons]; omega

/-- On a non-empty sample list, `getAggregation` proceeds past the sort and the
`avg` division, folding the aggregation names over the sorted samples. -/
theorem getAggregation_nonempty (l : List Int) (aggs : List String) (hne : l ≠ []) :
    ∃ su av mi ma, getAggregation l aggs
      = aggFold (List.insertionSort (· ≤ ·) l) (l.length : Int) su av mi ma aggs [] := by
  unfold getAggregation
  rw [quickSortTop_eq_insertionSort l hne]
  simp only [if_neg (length_ne_zero_int l hne)]
  exact ⟨_, _, _, _, rfl⟩

theorem string_ne_of_data {s t : String} (h : s.data ≠ t.data) : s ≠ t :=
  fun he => h (congrArg String.data he)

/-- `aggStep` on a well-formed percentile name `p<N>` reports the sorted value
at the computed index. -/
theorem aggStep_pname (sorted : List Int) (cnt su av mi ma : Int)
    (res : List (String × Int)) (name : String) (rest : List Char) (N x : Int)
    (hdata : name.data = 'p' :: rest)
    (hparse : goParseInt64 (String.mk rest) = some N)
    (hx : lgetI sorted (percentileIndex cnt N) = some x) :
    aggStep sorted cnt su av mi ma res name = some (mapSet res name x) := by
  have h₁ : name ≠ "cnt" := string_ne_of_data (by rw [hdata]; intro h; injection h with h₂; exact absurd h₂ (by decide))
  have h₂ : name ≠ "sum" := string_ne_of_data (by rw [hdata]; intro h; injection h with h₂; exact absurd h₂ (by decide))
  have h₃ : name ≠ "avg" := string_ne_of_data (by rw [hdata]; intro h; injection h with h₂; exact absurd h₂ (by decide))
  have h₄ : name ≠ "min" := string_ne_of_data (by rw [hdata]; intro h; injection h with h₂; exact absurd h₂ (by decide))
  have h₅ : name ≠ "max" := string_ne_of_data (by rw [hdata]; intro h; injection h with h₂; exact absurd h₂ (by decide))
  unfold aggStep
  rw [if_neg h₁, if_neg h₂, if_neg h₃, if_neg h₄, if_neg h₅, hdata]
  simp only [if_pos rfl, hparse, hx, if_true, reduceIte]

/-- `aggFold` over the five basic aggregation names always succeeds. -/
theorem aggFold_basic (sorted : List Int) (cnt su av mi ma : Int) :
    ∀ (aggs : List String) (res : List (String × Int)),
    (∀ a ∈ aggs, a = "cnt" ∨ a = "sum" ∨ a = "avg" ∨ a = "min" ∨ a = "max") →
    ∃ r, aggFold sorted cnt su av mi ma aggs res = some r := by
  intro aggs
  induction aggs with
  | nil => intro res _; exact ⟨res, rfl⟩
  | cons a rest ih =>
    intro res hb
    have ha := hb a (List.mem_cons_self a rest)
    have hrest : ∀ b ∈ rest, b = "cnt" ∨ b = "sum" ∨ b = "avg" ∨ b = "min" ∨ b = "max" :=
      fun b hbr => hb b (List.mem_cons_of_mem a hbr)
    rcases ha with h | h | h | h | h <;> subst h <;>
      simpa only [aggFold, aggStep, if_pos rfl, reduceIte] using ih _ hrest

/-! ## PeckTask (src/peck_task.go) -/

/-- `PeckTask` state relevant to `Process`: its stop flag and its aggregator.
`aggEnabled` models `Aggregator.IsEnable` (the method is called by
`peck_task.go` but its body is outside the given sources; the spec describes
aggregation as optional per task, so it enters as a boolean). -/
structure PeckTaskM : Type where
  stop : Bool
  aggEnabled : Bool
  aggregator : Aggregator
deriving DecidableEq

/-- `PeckTask.Process`.  The filter (`PeckFilter.Drop`) and the extractor
(`Extractor.Extract`, whose error `Process` discards) are external
collaborators and enter as function parameters; `wallNow` is the wall clock
available to `Record`.  The result is the updated task paired with the field
map handed to `sender.Send`, if any; the outer `none` is a panic inside
`Dump`. -/
def PeckTaskM.process (p : PeckTaskM) (filterDrop : String → Bool)
    (extract : String → List (String × GoVal)) (content : String) (wallNow : Int) :
    Option (PeckTaskM × Option (List (String × GoVal))) :=
  if p.stop then some (p, none)
  else if filterDrop content then some (p, none)
  else
    let fields := extract content
    if p.aggEnabled then
      let ra := p.aggregator.record wallNow fields
      if ra.2.isDeadline ra.1 then
        match ra.2.dump ra.1 with
        | none => none
        | some fa => some ({ p with aggregator := fa.2 }, some fa.1)
      else some ({ p with aggregator := ra.2 }, none)
    else some (p, some fields)

/-! ## NewPeckTask (src/peck_task.go) -/

structure PeckTaskConfigM : Type where
  name : String
  aggregatorInterval : Int
  aggregatorCfg : AggregatorConfig
deriving DecidableEq

structure PeckTaskStatM : Type where
  name : String
  stop : Bool
deriving DecidableEq

structure PeckTaskFull : Type where
  config : PeckTaskConfigM
  stat : PeckTaskStatM
  aggregator : Aggregator
deriving DecidableEq

/-- `NewPeckTask`.  `extractorOK` / `senderOK` stand for the success of the
external `NewExtractor` / `NewSender` constructors (the filter constructor
cannot fail).  Construction performs no validation of the aggregation
names. -/
def newPeckTask (c : PeckTaskConfigM) (s : Option PeckTaskStatM)
    (extractorOK senderOK : Bool) : Option PeckTaskFull :=
  let stat : PeckTaskStatM :=
    match s with
    | none => { name := c.name, stop := true }
    | some st => st
  if ¬ extractorOK then none
  else if ¬ senderOK then none
  else some { config := c, stat := stat,
              aggregator := newAggregator c.aggregatorInterval c.aggregatorCfg }

/-! ## Pecker registry (src/aggregator.go, Pecker part) -/

/-- Go `delete(m, k)`. -/
def mapRemove {α : Type} : List (String × α) → String → List (String × α)
  | [], _ => []
  | (k₁, v) :: rest, k => if k₁ = k then rest else (k₁, v) :: mapRemove rest k

/-- The subscriber set of one `LogTask`.  Modelled from the spec: a `LogTask`
owns the set of `PeckTask`s subscribed to one path; its `AddPeckTask`,
`RemovePeckTask` and `Empty` bodies are outside the given sources. -/
structure LogTaskM : Type where
  logPath : String
  peckTasks : List String
deriving DecidableEq

/-- The registry state of `Pecker`: `nameToPath` and `logTasks`.  The
persistent store is an external collaborator and is not part of the state. -/
structure PeckerM : Type where
  nameToPath : List (String × String)
  logTasks : List (String × LogTaskM)
deriving DecidableEq

def peckerEmpty : PeckerM := { nameToPath := [], logTasks := [] }

/-- `Pecker.AddPeckTask`.  `ctorOK` stands for `NewPeckTask` succeeding.
`none` models the panic of calling `AddPeckTask` on a `LogTask` missing from
`logTasks` (unreachable, as proven below). -/
def addPeckTask (s : PeckerM) (name path : String) (ctorOK : Bool) :
    Option (Except String PeckerM) :=
  if (assocLookup s.nameToPath name).isSome then
    some (Except.error "Peck task already exist")
  else if ¬ ctorOK then some (Except.error "NewPeckTask failed")
  else
    let logTasks₁ :=
      if (assocLookup s.logTasks path).isSome then s.logTasks
      else mapSet s.logTasks path { logPath := path, peckTasks := [] }
    let nameToPath₁ := mapSet s.nameToPath name path
    match assocLookup logTasks₁ path with
    | none => none
    | some lt =>
      let lt₁ : LogTaskM := { lt with peckTasks := lt.peckTasks ++ [name] }
      some (Except.ok { nameToPath := nameToPath₁, logTasks := mapSet logTasks₁ path lt₁ })

/-- `Pecker.RemovePeckTask`.  The two db removals are external (their joint
failure would panic).  `LogTask.RemovePeckTask` is spec-modelled: it detaches
the named subscriber; `Empty()` checks for zero subscribers, on which the
`LogTask` is closed and dropped.  `none` models the `log.Panicf` on an
inconsistent registry. -/
def removePeckTask (s : PeckerM) (name : String) : Option (Except String PeckerM) :=
  match assocLookup s.nameToPath name with
  | none => some (Except.error "Peck task name not exist")
  | some logPath =>
    match assocLookup s.logTasks logPath with
    | none => none
    | some logTask =>
      let logTask₁ : LogTaskM := { logTask with peckTasks := logTask.peckTasks.erase name }
      let nameToPath₁ := mapRemove s.nameToPath name
      if logTask₁.peckTasks = [] then
        some (Except.ok { nameToPath := nameToPath₁, logTasks := mapRemove s.logTasks logPath })
      else
        some (Except.ok { nameToPath := nameToPath₁, logTasks := mapSet s.logTasks logPath logTask₁ })

inductive PeckerOp : Type where
  | add (name path : String) (ctorOK : Bool)
  | remove (name : String)
deriving DecidableEq

/-- Run one registry operation; an error leaves the registry unchanged
(the caller only receives the error value). -/
def runOp (s : PeckerM) : PeckerOp → Option PeckerM
  | PeckerOp.add name path ctorOK =>
    match addPeckTask s name path ctorOK with
    | none => none
    | some (Except.error _) => some s
    | some (Except.ok s₁) => some s₁
  | PeckerOp.remove name =>
    match removePeckTask s name with
    | none => none
    | some (Except.error _) => some s
    | some (Except.ok s₁) => some s₁

def runOps : List PeckerOp → PeckerM → Option PeckerM
  | [], s => some s
  | op :: rest, s =>
    match runOp s op with
    | none => none
    | some s₁ => runOps rest s₁

/-- Mutual consistency of the two registry maps: unique keys, every
registered name subscribed in its path's `LogTask`, and every `LogTask`
non-empty with all of its subscribers registered back to its path. -/
def PeckerInv (s : PeckerM) : Prop :=
  (s.nameToPath.map Prod.fst).Nodup ∧
  (s.logTasks.map Prod.fst).Nodup ∧
  (∀ np ∈ s.nameToPath, ∃ lt, assocLookup s.logTasks np.2 = some lt ∧ np.1 ∈ lt.peckTasks) ∧
  (∀ pl ∈ s.logTasks, pl.2.peckTasks ≠ [] ∧ pl.2.peckTasks.Nodup ∧
    ∀ n ∈ pl.2.peckTasks, assocLookup s.nameToPath n = some pl.1)

/-! ## Pecker start/stop against persisted stats (src/aggregator.go) -/

/-- One subscribed task with its in-memory `Stat.Stop` flag. -/
structure TaskEntry : Type where
  name : String
  stop : Bool
deriving DecidableEq

structure LogTaskS : Type where
  tasks : List TaskEntry
deriving DecidableEq

/-- Registry plus persisted stats, for the start/stop operations.  `dbStats`
maps a task name to its persisted `Stop` flag. -/
structure PeckerS : Type where
  nameToPath : List (String × String)
  logTasks : List (String × LogTaskS)
  dbStats : List (String × Bool)
deriving DecidableEq

/-- `LogTask.StartPeckTask` (spec-modelled: the `LogTask` flips the named
task's `Stop` flag via `PeckTask.Start`, which always succeeds since both
concrete senders' `Start` returns nil). -/
def logTaskStart (lt : LogTaskS) (name : String) : LogTaskS :=
  { tasks := lt.tasks.map (fun t => if t.name = name then { t with stop := false } else t) }

/-- `LogTask.StopPeckTask` (spec-modelled, symmetric to `logTaskStart`). -/
def logTaskStop (lt : LogTaskS) (name : String) : LogTaskS :=
  { tasks := lt.tasks.map (fun t => if t.name = name then { t with stop := true } else t) }

/-- `Pecker.StartPeckTask`: resolve the task, delegate to the `LogTask`
(mutating the in-memory flag) and only then check the persisted stat:
`AlreadyInState` when it was not stopped, otherwise persist `Stop=false`.
Returns the final state and the error, if any; `none` models the nil-pointer
panic on a missing `LogTask`.  (The trailing `log_task.Start()` touches only
the tail-loop state, which is not part of this model.) -/
def startPeckTask (s : PeckerS) (name : String) : Option (PeckerS × Option String) :=
  match assocLookup s.nameToPath name with
  | none => some (s, some "Task not exist")
  | some logPath =>
    match assocLookup s.logTasks logPath with
    | none => none
    | some logTask =>
      let s₁ : PeckerS :=
        { s with logTasks := mapSet s.logTasks logPath (logTaskStart logTask name) }
      match assocLookup s.dbStats name with
      | none => some (s₁, some "GetStat failed")
      | some stop =>
        if stop = false then some (s₁, some "Task already started")
        else some ({ s₁ with dbStats := mapSet s.dbStats name false }, none)

/-- `Pecker.StopPeckTask`, symmetric to `startPeckTask`. -/
def stopPeckTask (s : PeckerS) (name : String) : Option (PeckerS × Option String) :=
  match assocLookup s.nameToPath name with
  | none => some (s, some "Task not exist")
  | some logPath =>
    match assocLookup s.logTasks logPath with
    | none => none
    | some logTask =>
      let s₁ : PeckerS :=
        { s with logTasks := mapSet s.logTasks logPath (logTaskStop logTask name) }
      match assocLookup s.dbStats name with
      | none => some (s₁, some "GetStat failed")
      | some stop =>
        if stop = true then some (s₁, some "Task already stopped")
        else some ({ s₁ with dbStats := mapSet s.dbStats name true }, none)

/-! ## Senders (src/unnamed/part_000) -/

/-- `InfluxDbSender.toInfluxdbLine`.  The code asserts
`fields["timestamp"].(int64)` and then, for every other entry,
`v.(map[string]float64)`.  No value this repository ever stores in a field
map (see `GoVal`) has dynamic type `map[string]float64` — `Dump` produces
`map[string]int64` — so that assertion fails (`none` = panic) on every
non-timestamp entry, and the line-building code below it is unreachable on
the repository's own data; only a timestamp-only map yields (empty) lines. -/
def toInfluxdbLine (host : String) (fields : List (String × GoVal)) : Option String :=
  match assocLookup fields "timestamp" with
  | some (GoVal.i64 _) =>
    fields.foldl
      (fun acc kv =>
        match acc with
        | none => none
        | some lines =>
          if kv.1 = "timestamp" then some lines
          else none)
      (some "")
  | _ => none

/-- The outgoing document built by `ElasticSearchSender.Send`: the generated
`Host` and millisecond-epoch `Timestamp` stamps first, then every input field
merged in with Go map assignment, so an input value overwrites a stamp on key
collision.  `host` stands for `GetHost()` and `nowMs` for
`time.Now().UnixNano() / 1000000`. -/
def esSendData (host : String) (nowMs : Int) (fields : List (String × GoVal)) :
    List (String × GoVal) :=
  fields.foldl (fun data kv => mapSet data kv.1 kv.2)
    [("Host", GoVal.str host), ("Timestamp", GoVal.i64 nowMs)]

/-! ### Association-list lemmas -/

theorem assocLookup_append {α : Type} (l₁ l₂ : List (String × α)) (k : String) :
    assocLookup (l₁ ++ l₂) k
      = match assocLookup l₁ k with
        | some v => some v
        | none => assocLookup l₂ k := by
  induction l₁ with
  | nil => simp [assocLookup]
  | cons hd tl ih =>
    obtain ⟨k₁, v₁⟩ := hd
    by_cases h : k₁ = k
    · simp [assocLookup, h]
    · simp only [List.cons_append, assocLookup, if_neg h]
      exact ih

theorem assocLookup_eq_none_iff {α : Type} (m : List (String × α)) (k : String) :
    assocLookup m k = none ↔ k ∉ m.map Prod.fst := by
  induction m with
  | nil => simp [assocLookup]
  | cons hd tl ih =>
    obtain ⟨k₁, v₁⟩ := hd
    by_cases h : k₁ = k
    · simp [assocLookup, h]
    · simp only [assocLookup, if_neg h, List.map_cons, List.mem_cons, ih]
      constructor
      · intro hn hor
        rcases hor with hor | hor
        · exact h hor.symm
        · exact hn hor
      · intro hn
        exact fun hmem => hn (Or.inr hmem)

theorem mem_of_assocLookup_eq_some {α : Type} (m : List (String × α)) (k : String) (v : α)
    (h : assocLookup m k = some v) : (k, v) ∈ m := by
  induction m with
  | nil => simp [assocLookup] at h
  | cons hd tl ih =>
    obtain ⟨k₁, v₁⟩ := hd
    by_cases he : k₁ = k
    · subst he
      rw [assocLookup, if_pos rfl] at h
      injection h with h
      subst h
      exact List.mem_cons_self _ _
    · rw [assocLookup, if_neg he] at h
      exact List.mem_cons_of_mem _ (ih h)

theorem assocLookup_of_mem_nodup {α : Type} (m : List (String × α)) (k : String) (v : α)
    (hnd : (m.map Prod.fst).Nodup) (h : (k, v) ∈ m) : assocLookup m k = some v := by
  induction m with
  | nil => simp at h
  | cons hd tl ih =>
    obtain ⟨k₁, v₁⟩ := hd
    simp only [List.map_cons, List.nodup_cons] at hnd
    rcases List.mem_cons.1 h with h | h
    · injection h with h₁ h₂
      subst h₁; subst h₂
      rw [assocLookup, if_pos rfl]
    · by_cases he : k₁ = k
      · subst he
        exact absurd (List.mem_map.2 ⟨(k₁, v), h, rfl⟩) hnd.1
      · rw [assocLookup, if_neg he]
        exact ih hnd.2 h

theorem mem_keys_mapSet {α : Type} (m : List (String × α)) (k v a) :
    a ∈ (mapSet m k v).map Prod.fst ↔ a = k ∨ a ∈ m.map Prod.fst := by
  induction m with
  | nil => simp [mapSet]
  | cons hd tl ih =>
    obtain ⟨k₁, v₁⟩ := hd
    by_cases h : k₁ = k
    · subst h
      simp [mapSet]
    · simp only [mapSet, if_neg h, List.map_cons, List.mem_cons, ih]
      tauto

theorem nodup_keys_mapSet {α : Type} (m : List (String × α)) (k : String) (v : α)
    (h : (m.map Prod.fst).Nodup) : ((mapSet m k v).map Prod.fst).Nodup := by
  induction m with
  | nil => simp [mapSet]
  | cons hd tl ih =>
    obtain ⟨k₁, v₁⟩ := hd
    simp only [List.map_cons, List.nodup_cons] at h
    by_cases he : k₁ = k
    · subst he
      simp only [mapSet, eq_self_iff_true, if_true, List.map_cons, List.nodup_cons]
      exact h
    · simp only [mapSet, if_neg he, List.map_cons, List.nodup_cons]
      refine ⟨?_, ih h.2⟩
      intro hmem
      rcases (mem_keys_mapSet tl k v k₁).1 hmem with hor | hor
      · exact he hor
      · exact h.1 hor

theorem mem_mapSet_iff {α : Type} (m : List (String × α)) (k : String) (v : α) (x : String × α)
    (hnd : (m.map Prod.fst).Nodup) :
    x ∈ mapSet m k v ↔ x = (k, v) ∨ (x ∈ m ∧ x.1 ≠ k) := by
  induction m with
  | nil =>
    simp only [mapSet, List.mem_singleton, List.not_mem_nil, false_and, or_false]
  | cons hd tl ih =>
    obtain ⟨k₁, v₁⟩ := hd
    simp only [List.map_cons, List.nodup_cons] at hnd
    by_cases he : k₁ = k
    · subst he
      simp only [mapSet, eq_self_iff_true, if_true, List.mem_cons]
      constructor
      · intro h
        rcases h with h | h
        · exact Or.inl h
        · refine Or.inr ⟨Or.inr h, ?_⟩
          intro hx
          exact hnd.1 (List.mem_map.2 ⟨x, h, hx⟩)
      · intro h
        rcases h with h | ⟨hmem, hne⟩
        · exact Or.inl h
        · rcases hmem with h | h
          · exact absurd (congrArg Prod.fst h) hne
          · exact Or.inr h
    · simp only [mapSet, if_neg he, List.mem_cons, ih hnd.2]
      constructor
      · intro h
        rcases h with h | h | h
        · subst h
          exact Or.inr ⟨Or.inl rfl, he⟩
        · exact Or.inl h
        · exact Or.inr ⟨Or.inr h.1, h.2⟩
      · intro h
        rcases h with h | ⟨hmem, hne⟩
        · exact Or.inr (Or.inl h)
        · rcases hmem with h | h
          · exact Or.inl h
          · exact Or.inr (Or.inr ⟨h, hne⟩)

theorem mapSet_lookup_self {α : Type} (m : List (String × α)) (k : String) (v : α)
    (h : assocLookup m k = some v) : mapSet m k v = m := by
  induction m with
  | nil => simp [assocLookup] at h
  | cons hd tl ih =>
    obtain ⟨k₁, v₁⟩ := hd
    by_cases he : k₁ = k
    · subst he
      rw [assocLookup, if_pos rfl] at h
      injection h with h
      subst h
      rw [mapSet, if_pos rfl]
    · rw [assocLookup, if_neg he] at h
      rw [mapSet, if_neg he, ih h]

theorem mapRemove_sublist {α : Type} (m : List (String × α)) (k : String) :
    (mapRemove m k).Sublist m := by
  induction m with
  | nil => simp [mapRemove]
  | cons hd tl ih =>
    obtain ⟨k₁, v₁⟩ := hd
    by_cases h : k₁ = k
    · rw [mapRemove, if_pos h]
      exact List.sublist_cons_self _ _
    · rw [mapRemove, if_neg h]
      exact ih.cons₂ _

theorem nodup_keys_mapRemove {α : Type} (m : List (String × α)) (k : String)
    (h : (m.map Prod.fst).Nodup) : ((mapRemove m k).map Prod.fst).Nodup :=
  ((mapRemove_sublist m k).map Prod.fst).nodup h

theorem mem_mapRemove_iff {α : Type} (m : List (String × α)) (k : String) (x : String × α)
    (hnd : (m.map Prod.fst).Nodup) :
    x ∈ mapRemove m k ↔ x ∈ m ∧ x.1 ≠ k := by
  induction m with
  | nil => simp [mapRemove]
  | cons hd tl ih =>
    obtain ⟨k₁, v₁⟩ := hd
    simp only [List.map_cons, List.nodup_cons] at hnd
    by_cases he : k₁ = k
    · subst he
      rw [mapRemove, if_pos rfl]
      simp only [List.mem_cons]
      constructor
      · intro h
        refine ⟨Or.inr h, ?_⟩
        intro hx
        exact hnd.1 (List.mem_map.2 ⟨x, h, hx⟩)
      · intro ⟨hmem, hne⟩
        rcases hmem with h | h
        · exact absurd (congrArg Prod.fst h) hne
        · exact h
    · rw [mapRemove, if_neg he]
      simp only [List.mem_cons, ih hnd.2]
      constructor
      · intro h
        rcases h with h | h
        · subst h
          exact ⟨Or.inl rfl, he⟩
        · exact ⟨Or.inr h.1, h.2⟩
      · intro ⟨hmem, hne⟩
        rcases hmem with h | h
        · exact Or.inl h
        · exact Or.inr ⟨h, hne⟩

theorem assocLookup_mapRemove {α : Type} (m : List (String × α)) (k b : String)
    (hnd : (m.map Prod.fst).Nodup) :
    assocLookup (mapRemove m k) b = if k = b then none else assocLookup m b := by
  induction m with
  | nil => simp [mapRemove, assocLookup]
  | cons hd tl ih =>
    obtain ⟨k₁, v₁⟩ := hd
    simp only [List.map_cons, List.nodup_cons] at hnd
    by_cases he : k₁ = k
    · subst he
      rw [mapRemove, if_pos rfl]
      by_cases hb : k₁ = b
      · subst hb
        rw [if_pos rfl]
        exact (assocLookup_eq_none_iff tl k₁).2 hnd.1
      · rw [if_neg hb, assocLookup, if_neg hb]
    · rw [mapRemove, if_neg he]
      by_cases hb : k₁ = b
      · subst hb
        have hkb : ¬ k = k₁ := fun h => he h.symm
        rw [assocLookup, if_pos rfl, if_neg hkb, assocLookup, if_pos rfl]
      · rw [assocLookup, if_neg hb, ih hnd.2, assocLookup, if_neg hb]

/-! ### Registry invariant preservation -/

theorem peckerEmpty_inv : PeckerInv peckerEmpty := by
  refine ⟨List.nodup_nil, List.nodup_nil, ?_, ?_⟩ <;> intro x hx <;> simp [peckerEmpty] at hx

theorem addPeckTask_inv (s : PeckerM) (name path : String) (ok : Bool)
    (hinv : PeckerInv s) :
    ∃ s₁, runOp s (PeckerOp.add name path ok) = some s₁ ∧ PeckerInv s₁ := by
  obtain ⟨hnd₁, hnd₂, hc, hd⟩ := hinv
  by_cases hname : (assocLookup s.nameToPath name).isSome
  · refine ⟨s, ?_, hnd₁, hnd₂, hc, hd⟩
    simp [runOp, addPeckTask, hname]
  · by_cases hok : ok = true
    · have hnone : assocLookup s.nameToPath name = none := by
        cases h : assocLookup s.nameToPath name
        · rfl
        · rw [h] at hname
          simp at hname
      have hlt : ∃ lt₀ : LogTaskM,
          assocLookup (if (assocLookup s.logTasks path).isSome then s.logTasks
            else mapSet s.logTasks path { logPath := path, peckTasks := [] }) path
            = some lt₀ ∧
          (∀ x, x ∈ (if (assocLookup s.logTasks path).isSome then s.logTasks
            else mapSet s.logTasks path { logPath := path, peckTasks := [] })
            ↔ (x = (path, lt₀) ∨ (x ∈ s.logTasks ∧ x.1 ≠ path))) ∧
          ((assocLookup s.logTasks path = none ∧ lt₀.peckTasks = []) ∨
            assocLookup s.logTasks path = some lt₀) := by
        cases hpath : assocLookup s.logTasks path with
        | none =>
          refine ⟨{ logPath := path, peckTasks := [] }, ?_, ?_, Or.inl ⟨rfl, rfl⟩⟩
          · simp only [hpath, Option.isSome_none, Bool.false_eq_true, if_false]
            rw [assocLookup_mapSet]
            simp
          · intro x
            simp only [hpath, Option.isSome_none, Bool.false_eq_true, if_false]
            exact mem_mapSet_iff s.logTasks path _ x hnd₂
        | some lt₀ =>
          refine ⟨lt₀, ?_, ?_, Or.inr rfl⟩
          · simp only [hpath, Option.isSome_some, if_true]
          · intro x
            simp only [hpath, Option.isSome_some, if_true]
            constructor
            · intro hx
              by_cases hxp : x.1 = path
              · left
                obtain ⟨x₁, x₂⟩ := x
                simp only at hxp
                subst hxp
                rw [assocLookup_of_mem_nodup s.logTasks x₁ x₂ hnd₂ hx] at hpath
                injection hpath with hpath
                rw [hpath]
              · exact Or.inr ⟨hx, hxp⟩
            · intro hx
              rcases hx with hx | hx
              · subst hx
                exact mem_of_assocLookup_eq_some _ _ _ hpath
              · exact hx.1
      obtain ⟨lt₀, hlook, hmem, hprev⟩ := hlt
      refine ⟨{ nameToPath := mapSet s.nameToPath name path,
                logTasks := mapSet
                  (if (assocLookup s.logTasks path).isSome then s.logTasks
                    else mapSet s.logTasks path { logPath := path, peckTasks := [] })
                  path { lt₀ with peckTasks := lt₀.peckTasks ++ [name] } }, ?_, ?_⟩
      · simp only [runOp, addPeckTask, hnone, Option.isSome_none, Bool.false_eq_true,
          if_false, hok, not_true, hlook]
      · have hnd₁' : ((mapSet s.nameToPath name path).map Prod.fst).Nodup :=
          nodup_keys_mapSet _ _ _ hnd₁
        have hndL : ((if (assocLookup s.logTasks path).isSome then s.logTasks
            else mapSet s.logTasks path { logPath := path, peckTasks := [] }).map
              Prod.fst).Nodup := by
          cases hpath : assocLookup s.logTasks path with
          | none =>
            simp only [hpath, Option.isSome_none, Bool.false_eq_true, if_false]
            exact nodup_keys_mapSet _ _ _ hnd₂
          | some lt₁ =>
            simp only [hpath, Option.isSome_some, if_true]
            exact hnd₂
        have hnameNotIn : name ∉ lt₀.peckTasks := by
          rcases hprev with ⟨-, h⟩ | h
          · rw [h]
            exact List.not_mem_nil name
          · intro hmem₀
            have hlk := (hd (path, lt₀) (mem_of_assocLookup_eq_some _ _ _ h)).2.2 name hmem₀
            rw [hnone] at hlk
            exact Option.noConfusion hlk
        refine ⟨hnd₁', nodup_keys_mapSet _ _ _ hndL, ?_, ?_⟩
        · intro np hnp
          rcases (mem_mapSet_iff s.nameToPath name path np hnd₁).1 hnp with hx | ⟨hx, hxne⟩
          · subst hx
            refine ⟨{ lt₀ with peckTasks := lt₀.peckTasks ++ [name] }, ?_, ?_⟩
            · rw [assocLookup_mapSet]
              simp
            · simp
          · obtain ⟨lt₂, hlt₂, hin₂⟩ := hc np hx
            by_cases hp2 : np.2 = path
            · rw [hp2] at hlt₂
              have hlt₀eq : lt₀ = lt₂ := by
                rcases hprev with ⟨h, -⟩ | h
                · rw [h] at hlt₂
                  exact Option.noConfusion hlt₂
                · rw [h] at hlt₂
                  injection hlt₂
              subst hlt₀eq
              refine ⟨{ lt₀ with peckTasks := lt₀.peckTasks ++ [name] }, ?_, ?_⟩
              · rw [hp2, assocLookup_mapSet]
                simp
              · simp only [List.mem_append]
                exact Or.inl hin₂
            · refine ⟨lt₂, ?_, hin₂⟩
              rw [assocLookup_mapSet, if_neg (fun h => hp2 h.symm)]
              cases hpath : assocLookup s.logTasks path with
              | none =>
                simp only [hpath, Option.isSome_none, Bool.false_eq_true, if_false]
                rw [assocLookup_mapSet, if_neg (fun h => hp2 h.symm)]
                exact hlt₂
              | some lt₃ =>
                simp only [hpath, Option.isSome_some, if_true]
                exact hlt₂
        · intro pl hpl
          rcases (mem_mapSet_iff _ path _ pl hndL).1 hpl with hx | ⟨hx, hxne⟩
          · subst hx
            refine ⟨by simp, ?_, ?_⟩
            · simp only []
              rw [List.nodup_append]
              refine ⟨?_, List.nodup_singleton name, ?_⟩
              · rcases hprev with ⟨-, h⟩ | h
                · rw [h]
                  exact List.nodup_nil
                · exact (hd (path, lt₀) (mem_of_assocLookup_eq_some _ _ _ h)).2.1
              · intro a ha hb
                rw [List.mem_singleton] at hb
                subst hb
                exact hnameNotIn ha
            · intro n hn
              simp only [List.mem_append, List.mem_singleton] at hn
              rcases hn with hn | hn
              · have hnp : assocLookup s.nameToPath n = some path := by
                  rcases hprev with ⟨-, h⟩ | h
                  · rw [h] at hn
                    exact absurd hn (List.not_mem_nil n)
                  · exact (hd (path, lt₀) (mem_of_assocLookup_eq_some _ _ _ h)).2.2 n hn
                rw [assocLookup_mapSet, if_neg ?_]
                · exact hnp
                · intro he
                  subst he
                  rw [hnone] at hnp
                  exact Option.noConfusion hnp
              · subst hn
                rw [assocLookup_mapSet, if_pos rfl]
          · have hxs : pl ∈ s.logTasks := ((hmem pl).1 hx).elim
              (fun h => absurd (congrArg Prod.fst h) hxne) (fun h => h.1)
            obtain ⟨hne, hndp, hback⟩ := hd pl hxs
            refine ⟨hne, hndp, ?_⟩
            intro n hn
            have hnp := hback n hn
            rw [assocLookup_mapSet, if_neg ?_]
            · exact hnp
            · intro he
              subst he
              rw [hnone] at hnp
              exact Option.noConfusion hnp
    · refine ⟨s, ?_, hnd₁, hnd₂, hc, hd⟩
      have hnone : assocLookup s.nameToPath name = none := by
        cases h : assocLookup s.nameToPath name
        · rfl
        · rw [h] at hname
          simp at hname
      simp [runOp, addPeckTask, hnone, hok]

theorem removePeckTask_inv (s : PeckerM) (name : String) (hinv : PeckerInv s) :
    ∃ s₁, runOp s (PeckerOp.remove name) = some s₁ ∧ PeckerInv s₁ := by
  obtain ⟨hnd₁, hnd₂, hc, hd⟩ := hinv
  cases hname : assocLookup s.nameToPath name with
  | none =>
    refine ⟨s, ?_, hnd₁, hnd₂, hc, hd⟩
    simp [runOp, removePeckTask, hname]
  | some logPath =>
    obtain ⟨lt, hlt, hin⟩ := hc (name, logPath) (mem_of_assocLookup_eq_some _ _ _ hname)
    obtain ⟨hne, hndp, hback⟩ := hd (logPath, lt) (mem_of_assocLookup_eq_some _ _ _ hlt)
    have hnd₁' := nodup_keys_mapRemove s.nameToPath name hnd₁
    -- facts about the modified registry common to both branches
    have hlkN : ∀ b, assocLookup (mapRemove s.nameToPath name) b
        = if name = b then none else assocLookup s.nameToPath b :=
      fun b => assocLookup_mapRemove s.nameToPath name b hnd₁
    by_cases hempty : lt.peckTasks.erase name = []
    · -- the last subscriber leaves: the LogTask is dropped
      refine ⟨{ nameToPath := mapRemove s.nameToPath name,
                logTasks := mapRemove s.logTasks logPath }, ?_, ?_⟩
      · simp only [runOp, removePeckTask, hname, hlt, hempty, if_pos]
      · refine ⟨hnd₁', nodup_keys_mapRemove s.logTasks logPath hnd₂, ?_, ?_⟩
        · intro np hnp
          obtain ⟨hnps, hnpne⟩ := (mem_mapRemove_iff s.nameToPath name np hnd₁).1 hnp
          obtain ⟨lt₂, hlt₂, hin₂⟩ := hc np hnps
          have hp2 : np.2 ≠ logPath := by
            intro he
            rw [he, hlt] at hlt₂
            injection hlt₂ with hlt₂
            subst hlt₂
            have hmem₂ : np.1 ∈ lt.peckTasks.erase name :=
              (List.Nodup.mem_erase_iff hndp).2 ⟨hnpne, hin₂⟩
            rw [hempty] at hmem₂
            exact List.not_mem_nil np.1 hmem₂
          refine ⟨lt₂, ?_, hin₂⟩
          rw [assocLookup_mapRemove s.logTasks logPath np.2 hnd₂,
            if_neg (fun h => hp2 h.symm)]
          exact hlt₂
        · intro pl hpl
          obtain ⟨hpls, hplne⟩ := (mem_mapRemove_iff s.logTasks logPath pl hnd₂).1 hpl
          obtain ⟨hne₂, hnd₂', hback₂⟩ := hd pl hpls
          refine ⟨hne₂, hnd₂', ?_⟩
          intro n hn
          have hnp := hback₂ n hn
          rw [hlkN n, if_neg ?_]
          · exact hnp
          · intro he
            subst he
            rw [hname] at hnp
            injection hnp with hnp
            exact hplne (hnp ▸ rfl)
      -- (the name cannot subscribe elsewhere: its registered path is unique)
    · -- other subscribers remain: the LogTask shrinks
      refine ⟨{ nameToPath := mapRemove s.nameToPath name,
                logTasks := mapSet s.logTasks logPath
                  { lt with peckTasks := lt.peckTasks.erase name } }, ?_, ?_⟩
      · simp only [runOp, removePeckTask, hname, hlt, hempty, if_neg]
        rfl
      · refine ⟨hnd₁', nodup_keys_mapSet _ _ _ hnd₂, ?_, ?_⟩
        · intro np hnp
          obtain ⟨hnps, hnpne⟩ := (mem_mapRemove_iff s.nameToPath name np hnd₁).1 hnp
          obtain ⟨lt₂, hlt₂, hin₂⟩ := hc np hnps
          by_cases hp2 : np.2 = logPath
          · rw [hp2, hlt] at hlt₂
            injection hlt₂ with hlt₂
            subst hlt₂
            refine ⟨{ lt with peckTasks := lt.peckTasks.erase name }, ?_, ?_⟩
            · rw [hp2, assocLookup_mapSet, if_pos rfl]
            · exact (List.Nodup.mem_erase_iff hndp).2 ⟨hnpne, hin₂⟩
          · refine ⟨lt₂, ?_, hin₂⟩
            rw [assocLookup_mapSet, if_neg (fun h => hp2 h.symm)]
            exact hlt₂
        · intro pl hpl
          rcases (mem_mapSet_iff s.logTasks logPath _ pl hnd₂).1 hpl with hx | ⟨hx, hxne⟩
          · subst hx
            refine ⟨hempty, List.Nodup.erase name hndp, ?_⟩
            intro n hn
            obtain ⟨hnne, hnmem⟩ := (List.Nodup.mem_erase_iff hndp).1 hn
            have hnp := hback n hnmem
            rw [hlkN n, if_neg (fun h => hnne h.symm)]
            exact hnp
          · obtain ⟨hne₂, hnd₂', hback₂⟩ := hd pl hx
            refine ⟨hne₂, hnd₂', ?_⟩
            intro n hn
            have hnp := hback₂ n hn
            rw [hlkN n, if_neg ?_]
            · exact hnp
            · intro he
              subst he
              rw [hname] at hnp
              injection hnp with hnp
              exact hxne (hnp ▸ rfl)

theorem runOp_inv (s : PeckerM) (op : PeckerOp) (hinv : PeckerInv s) :
    ∃ s₁, runOp s op = some s₁ ∧ PeckerInv s₁ := by
  cases op with
  | add name path ok => exact addPeckTask_inv s name path ok hinv
  | remove name => exact removePeckTask_inv s name hinv

theorem runOps_inv : ∀ (ops : List PeckerOp) (s : PeckerM), PeckerInv s →
    ∃ s₁, runOps ops s = some s₁ ∧ PeckerInv s₁ := by
  intro ops
  induction ops with
  | nil => intro s hinv; exact ⟨s, rfl, hinv⟩
  | cons op rest ih =>
    intro s hinv
    obtain ⟨s₁, hop, hinv₁⟩ := runOp_inv s op hinv
    obtain ⟨s₂, hops, hinv₂⟩ := ih s₁ hinv₁
    refine ⟨s₂, ?_, hinv₂⟩
    simp only [runOps, hop]
    exact hops

/-- Folding Go map assignments over a list of bindings: the last binding of a
key wins, otherwise the initial map answers. -/
theorem foldl_mapSet_lookup {α : Type} :
    ∀ (fields : List (String × α)) (m : List (String × α)) (k : String),
    assocLookup (fields.foldl (fun data kv => mapSet data kv.1 kv.2) m) k
      = match assocLookup fields.reverse k with
        | some v => some v
        | none => assocLookup m k := by
  intro fields
  induction fields with
  | nil => intro m k; simp [assocLookup]
  | cons kv rest ih =>
    intro m k
    rw [List.foldl_cons, ih, List.reverse_cons, assocLookup_append]
    cases h : assocLookup rest.reverse k with
    | some v => rfl
    | none =>
      simp only []
      rw [assocLookup_mapSet]
      by_cases he : kv.1 = k
      · simp [assocLookup, he]
      · simp [assocLookup, he]

/-- A `LogTask`-level start is a no-op on the state when every matching task
is already started. -/
theorem logTaskStart_id (lt : LogTaskS) (name : String)
    (h : ∀ t ∈ lt.tasks, t.name = name → t.stop = false) :
    logTaskStart lt name = lt := by
  unfold logTaskStart
  have hmap : lt.tasks.map (fun t => if t.name = name then { t with stop := false } else t)
      = lt.tasks.map id := by
    apply List.map_congr_left
    intro t ht
    by_cases he : t.name = name
    · rw [if_pos he]
      have hstop := h t ht he
      cases t with
      | mk n st =>
        simp only at hstop
        rw [hstop]
        rfl
    · rw [if_neg he]
      rfl
  rw [hmap, List.map_id]

/-! ## Claim theorems -/

/-- A concrete aggregation configuration used by several concrete
evaluations: measurement field `m`, no tags, aggregation `cnt`, target `t`,
timestamp field `ts`. -/
def cfgEx : AggregatorConfig :=
  { preMeasurment := "", measurment := "m", tags := [], aggregations := ["cnt"],
    target := "t", timestamp := "ts" }

theorem tdiv_eq_fdiv_of_nonneg (a b : Int) (ha : 0 ≤ a) (hb : 0 < b) :
    a.tdiv b = a.fdiv b := by
  rw [Int.tdiv_eq_ediv ha (by omega), Int.fdiv_eq_ediv a (by omega)]

/-- C1 (counterexample): the claim quantifies over every timestamp and states
`IsDeadline(t)` is true iff `floor(t/Interval)` differs from `postTime`; at
`Interval = 60`, `postTime = 0`, `t = -30` the floor quotient is `-1 ≠ 0`, yet
`IsDeadline` compares the Go (truncated) quotient `0` and returns false. -/
theorem C1_counterexample :
    (newAggregator 60 cfgEx).isDeadline (-30) = false ∧
    Int.fdiv (-30) 60 ≠ (newAggregator 60 cfgEx).postTime := by
  constructor
  · rfl
  · decide

/-- C1 (amended): for a positive interval and a non-negative timestamp (where
Go's truncated division agrees with floor), `IsDeadline(t)` is true iff
`floor(t/Interval)` differs from `postTime`; whenever `Dump(t)` completes it
sets `postTime` to `floor(t/Interval)` and clears every bucket; and with
`Interval = 60`, `postTime = 0`: `IsDeadline` is false on `[0, 59]`, true at
`60`, and `Dump(60)` makes `postTime = 1` with empty buckets. -/
theorem C1_deadline_dump (agg : Aggregator) (hI : 0 < agg.interval)
    (t : Int) (ht : 0 ≤ t) :
    ((agg.isDeadline t = true) ↔ Int.fdiv t agg.interval ≠ agg.postTime) ∧
    (∀ f a₁, agg.dump t = some (f, a₁) →
      a₁.postTime = Int.fdiv t agg.interval ∧ a₁.buckets = []) ∧
    (agg.interval = 60 → agg.postTime = 0 →
      (∀ u : Int, 0 ≤ u → u ≤ 59 → agg.isDeadline u = false) ∧
      agg.isDeadline 60 = true ∧
      (∀ f a₁, agg.dump 60 = some (f, a₁) → a₁.postTime = 1 ∧ a₁.buckets = [])) := by
  have hkey : ∀ u : Int, 0 ≤ u → getSampleTime u agg.interval = Int.fdiv u agg.interval :=
    fun u hu => tdiv_eq_fdiv_of_nonneg u agg.interval hu hI
  refine ⟨?_, ?_, ?_⟩
  · unfold Aggregator.isDeadline
    rw [hkey t ht]
    constructor
    · intro h
      intro he
      rw [decide_eq_true_iff] at h
      exact h he.symm
    · intro h
      rw [decide_eq_true_iff]
      exact fun he => h he.symm
  · intro f a₁ hd
    unfold Aggregator.dump at hd
    cases hdb : dumpBuckets agg.cfg.aggregations agg.buckets [] with
    | none => rw [hdb] at hd; exact Option.noConfusion hd
    | some fields =>
      rw [hdb] at hd
      injection hd with hd
      have ha₁ := congrArg Prod.snd hd
      simp only at ha₁
      rw [← ha₁]
      exact ⟨hkey t ht, rfl⟩
  · intro h60 hpost
    refine ⟨?_, ?_, ?_⟩
    · intro u hu₁ hu₂
      unfold Aggregator.isDeadline
      rw [decide_eq_false_iff_not]
      intro hne
      apply hne
      rw [hpost, h60]
      unfold getSampleTime
      rw [Int.tdiv_eq_ediv hu₁ (by omega)]
      omega
    · unfold Aggregator.isDeadline
      rw [decide_eq_true_iff, hpost, h60]
      unfold getSampleTime
      intro hcontra
      rw [Int.tdiv_eq_ediv (by omega) (by omega)] at hcontra
      omega
    · intro f a₁ hd
      unfold Aggregator.dump at hd
      cases hdb : dumpBuckets agg.cfg.aggregations agg.buckets [] with
      | none => rw [hdb] at hd; exact Option.noConfusion hd
      | some fields =>
        rw [hdb] at hd
        injection hd with hd
        have ha₁ := congrArg Prod.snd hd
        simp only at ha₁
        rw [← ha₁]
        refine ⟨?_, rfl⟩
        show getSampleTime 60 agg.interval = 1
        rw [h60]
        decide

theorem C1_witness :
    (newAggregator 60 cfgEx).isDeadline 60 = true ∧
    (∀ f a₁, (newAggregator 60 cfgEx).dump 60 = some (f, a₁) →
      a₁.postTime = 1 ∧ a₁.buckets = []) := by
  have h := (C1_deadline_dump (newAggregator 60 cfgEx) (by decide) 60 (by decide)).2.2
    rfl rfl
  exact ⟨h.2.1, h.2.2⟩

/-- The concrete running task used for the `Process` evaluations: not
stopped, aggregation enabled, a fresh 60-second aggregator. -/
def taskEx : PeckTaskM :=
  { stop := false, aggEnabled := true, aggregator := newAggregator 60 cfgEx }

/-- A concrete extractor result: measurement `req`, target value `5`,
timestamp `60`. -/
def extractEx : String → List (String × GoVal) :=
  fun _ => [("m", GoVal.str "req"), ("t", GoVal.str "5"), ("ts", GoVal.str "60")]

/-- C2 (counterexample): processing one line whose sample closes the window
of a fresh aggregator (no strictly-older data exists at all) sends a dump
that carries that very sample: bucket `req` reports `cnt = 1`.  Under the
claim the dump sent on this transition would contain no bucket data. -/
theorem C2_counterexample :
    taskEx.process (fun _ => false) extractEx "line" 1000
      = some ({ stop := false, aggEnabled := true,
                aggregator := { interval := 60, cfg := cfgEx, buckets := [], postTime := 1 } },
          some [("req", GoVal.mapI64 [("cnt", 1)]), ("timestamp", GoVal.i64 60)]) := by
  rfl

/-- C2 (amended): on the rollover transition, `Process` first records the
incoming sample and only then evaluates the deadline, so the dump it sends is
the dump of the post-`Record` aggregator — it includes the triggering sample
along with everything recorded since the previous dump. -/
theorem C2_rollover_send (task : PeckTaskM) (filterDrop : String → Bool)
    (extract : String → List (String × GoVal)) (content : String)
    (wallNow ts : Int) (agg₁ : Aggregator) (f : List (String × GoVal)) (agg₂ : Aggregator)
    (hstop : task.stop = false) (hdrop : filterDrop content = false)
    (hen : task.aggEnabled = true)
    (hrec : task.aggregator.record wallNow (extract content) = (ts, agg₁))
    (hdl : agg₁.isDeadline ts = true)
    (hdump : agg₁.dump ts = some (f, agg₂)) :
    task.process filterDrop extract content wallNow
      = some ({ task with aggregator := agg₂ }, some f) := by
  unfold PeckTaskM.process
  rw [hstop, hdrop, hen]
  simp only [Bool.false_eq_true, if_false, if_true, hrec, hdl, hdump]

theorem C2_witness :
    taskEx.process (fun _ => false) extractEx "line" 1000
      = some ({ taskEx with aggregator :=
          { interval := 60, cfg := cfgEx, buckets := [], postTime := 1 } },
        some [("req", GoVal.mapI64 [("cnt", 1)]), ("timestamp", GoVal.i64 60)]) :=
  C2_rollover_send taskEx (fun _ => false) extractEx "line" 1000 60
    { interval := 60, cfg := cfgEx,
      buckets := [("req", [("", [5])])], postTime := 0 }
    [("req", GoVal.mapI64 [("cnt", 1)]), ("timestamp", GoVal.i64 60)]
    { interval := 60, cfg := cfgEx, buckets := [], postTime := 1 }
    rfl rfl rfl rfl rfl rfl

/-- C3 (counterexample): for `p200` on a bucket of two samples the claimed
index is `2*200/100 - 1 = 3`, beyond the slice; `getAggregation` panics
(`targetValue[index]` out of range) instead of reporting any value. -/
theorem C3_counterexample : getAggregation [1, 2] ["p200"] = none := by rfl

theorem percentileIndex_nonneg (cnt proportion : Int) : 0 ≤ percentileIndex cnt proportion := by
  unfold percentileIndex
  simp only []
  split <;> omega

/-- C3 (amended): for every well-formed percentile name `p<N>` and non-empty
sample list, whenever the computed index `max 0 (cnt*N/100 - 1)` (truncating
division; the claimed formula, as proven in the first conjunct, assuming
`cnt*N` fits in `int64`) is within the sample count, `getAggregation` reports
the value at that index of the samples sorted ascending — a nearest-rank
percentile.  For indices at or beyond the count (possible when `N > 100`) the
code panics instead, see the counterexample. -/
theorem C3_percentile (l : List Int) (name : String) (rest : List Char) (N : Int)
    (hne : l ≠ [])
    (hdata : name.data = 'p' :: rest)
    (hparse : goParseInt64 (String.mk rest) = some N)
    (hov₁ : int64Min ≤ (l.length : Int) * N)
    (hov₂ : (l.length : Int) * N ≤ int64Max)
    (hidx : percentileIndex (l.length : Int) N < (l.length : Int)) :
    percentileIndex (l.length : Int) N = max 0 (Int.tdiv ((l.length : Int) * N) 100 - 1) ∧
    getAggregation l [name]
      = some [(name, geti (List.insertionSort (· ≤ ·) l) (percentileIndex (l.length : Int) N))] := by
  refine ⟨percentileIndex_eq_of_no_overflow _ _ hov₁ hov₂, ?_⟩
  obtain ⟨su, av, mi, ma, heq⟩ := getAggregation_nonempty l [name] hne
  rw [heq]
  have hlen : (List.insertionSort (· ≤ ·) l).length = l.length :=
    List.length_insertionSort _ l
  have hx : lgetI (List.insertionSort (· ≤ ·) l) (percentileIndex (l.length : Int) N)
      = some (geti (List.insertionSort (· ≤ ·) l) (percentileIndex (l.length : Int) N)) := by
    apply lgetI_of_range
    · exact percentileIndex_nonneg _ _
    · rw [hlen]
      exact hidx
  have hstep := aggStep_pname (List.insertionSort (· ≤ ·) l) (l.length : Int) su av mi ma
    [] name rest N _ hdata hparse hx
  unfold aggFold
  rw [hstep]
  rfl

theorem C3_witness :
    getAggregation [1, 2, 3, 4, 5, 6, 7, 8, 9, 10] ["p50"] = some [("p50", 5)] ∧
    percentileIndex 10 50 = 4 := by
  have h := C3_percentile [1, 2, 3, 4, 5, 6, 7, 8, 9, 10] "p50" ['5', '0'] 50
    (by decide) rfl (by decide) (by decide) (by decide) (by decide)
  refine ⟨?_, by decide⟩
  rw [h.2]
  rfl

/-- C5 (counterexample): on an empty sample list `getAggregation` does not
evaluate totally: the unconditional `quickSort(targetValue, 0, -1)` call
reads `values[0]` of the empty slice (out of range) — and `avg = sum/cnt`
would divide by zero — so the code panics instead of producing
`cnt=0, min=max=avg=sum=0`. -/
theorem C5_counterexample :
    getAggregation [] ["cnt", "sum", "avg", "min", "max"] = none := by rfl

/-- C5 (amended): the degenerate zero results are never produced — the empty
list panics (see the counterexample) — but for every NON-empty sample list
the computation over the basic aggregation names evaluates totally: the sort
succeeds and `cnt > 0` guards the average's division. -/
theorem C5_nonempty_total (l : List Int) (aggs : List String) (hne : l ≠ [])
    (hbasic : ∀ a ∈ aggs, a = "cnt" ∨ a = "sum" ∨ a = "avg" ∨ a = "min" ∨ a = "max") :
    ∃ r, getAggregation l aggs = some r := by
  obtain ⟨su, av, mi, ma, heq⟩ := getAggregation_nonempty l aggs hne
  rw [heq]
  exact aggFold_basic _ _ _ _ _ _ aggs [] hbasic

theorem C5_witness :
    ∃ r, getAggregation [3] ["cnt", "sum", "avg", "min", "max"] = some r :=
  C5_nonempty_total [3] ["cnt", "sum", "avg", "min", "max"] (by decide) (by decide)

/-- C4: over every sequence of add/remove operations from the empty registry,
`nameToPath` and `logTasks` stay mutually consistent (no panic is reached,
every registered name is subscribed at its path, every `LogTask` has at least
one subscriber and each subscriber registers back to that path); adding a
duplicate active name fails with the already-exists error and changes neither
map; and removing the last task of a path drops that path's `LogTask`. -/
theorem C4_registry :
    (∀ ops : List PeckerOp, ∃ s, runOps ops peckerEmpty = some s ∧ PeckerInv s) ∧
    (∀ (s : PeckerM) (name path : String) (ok : Bool),
      (assocLookup s.nameToPath name).isSome →
      addPeckTask s name path ok = some (Except.error "Peck task already exist") ∧
      runOp s (PeckerOp.add name path ok) = some s) ∧
    (∀ (s : PeckerM) (name path : String) (lt : LogTaskM),
      PeckerInv s →
      assocLookup s.nameToPath name = some path →
      assocLookup s.logTasks path = some lt →
      lt.peckTasks = [name] →
      ∃ s₁, removePeckTask s name = some (Except.ok s₁) ∧
        assocLookup s₁.logTasks path = none ∧
        assocLookup s₁.nameToPath name = none) := by
  refine ⟨?_, ?_, ?_⟩
  · intro ops
    exact runOps_inv ops peckerEmpty peckerEmpty_inv
  · intro s name path ok hname
    constructor
    · unfold addPeckTask
      rw [if_pos hname]
    · simp [runOp, addPeckTask, hname]
  · intro s name path lt hinv hname hlt hsingle
    obtain ⟨hnd₁, hnd₂, -, -⟩ := hinv
    have herase : lt.peckTasks.erase name = [] := by
      rw [hsingle, List.erase_cons_head]
    refine ⟨{ nameToPath := mapRemove s.nameToPath name,
              logTasks := mapRemove s.logTasks path }, ?_, ?_, ?_⟩
    · simp only [removePeckTask, hname, hlt, herase, if_pos]
    · rw [assocLookup_mapRemove s.logTasks path path hnd₂, if_pos rfl]
    · rw [assocLookup_mapRemove s.nameToPath name name hnd₁, if_pos rfl]

/-- A two-map registry state with one task `a` on path `p`. -/
def peckerEx : PeckerM :=
  { nameToPath := [("a", "p")], logTasks := [("p", { logPath := "p", peckTasks := ["a"] })] }

theorem peckerEx_inv : PeckerInv peckerEx := by
  refine ⟨by decide, by decide, ?_, ?_⟩
  · intro np hnp
    have hnp₁ : np = ("a", "p") := by
      simpa [peckerEx] using hnp
    subst hnp₁
    exact ⟨{ logPath := "p", peckTasks := ["a"] }, rfl, by decide⟩
  · intro pl hpl
    have hpl₁ : pl = ("p", { logPath := "p", peckTasks := ["a"] }) := by
      simpa [peckerEx] using hpl
    subst hpl₁
    refine ⟨by decide, by decide, ?_⟩
    intro n hn
    rw [List.mem_singleton] at hn
    subst hn
    rfl

theorem C4_witness :
    (∃ s, runOps [PeckerOp.add "a" "p" true] peckerEmpty = some s ∧ PeckerInv s) ∧
    (addPeckTask peckerEx "a" "q" true = some (Except.error "Peck task already exist") ∧
      runOp peckerEx (PeckerOp.add "a" "q" true) = some peckerEx) ∧
    (∃ s₁, removePeckTask peckerEx "a" = some (Except.ok s₁) ∧
      assocLookup s₁.logTasks "p" = none ∧ assocLookup s₁.nameToPath "a" = none) :=
  ⟨C4_registry.1 [PeckerOp.add "a" "p" true],
    C4_registry.2.1 peckerEx "a" "q" true (by decide),
    C4_registry.2.2 peckerEx "a" "p" { logPath := "p", peckTasks := ["a"] }
      peckerEx_inv rfl rfl rfl⟩

/-- Samples currently accumulated under one measurement and tag signature. -/
def bucketSamples (buckets : List (String × List (String × List Int)))
    (bucketName bucketTag : String) : List Int :=
  (assocLookup ((assocLookup buckets bucketName).getD []) bucketTag).getD []

theorem bucketSamples_bucketsAppend (buckets : List (String × List (String × List Int)))
    (m tag : String) (v : Int) :
    bucketSamples (bucketsAppend buckets m tag v) m tag = bucketSamples buckets m tag ++ [v] := by
  unfold bucketSamples bucketsAppend
  rw [assocLookup_mapSet, if_pos rfl]
  simp only [Option.getD_some]
  rw [assocLookup_mapSet, if_pos rfl]
  simp

/-- C6: when the measurement and target fields are present strings (and a
target field is configured), `Record` appends exactly one sample to the
bucket named by the measurement value and tag signature: the parsed integer
when the target value parses, and the literal `1` otherwise — it neither
fails nor skips the sample. -/
theorem C6_record (agg : Aggregator) (wallNow : Int) (fields : List (String × GoVal))
    (m tv : String)
    (hm : lookupStr fields agg.cfg.measurment = some m)
    (htgt : agg.cfg.target ≠ "")
    (htv : lookupStr fields agg.cfg.target = some tv) :
    (agg.record wallNow fields).2.buckets
      = bucketsAppend agg.buckets m (buildTag agg.cfg.tags fields) ((goParseInt64 tv).getD 1) ∧
    bucketSamples (agg.record wallNow fields).2.buckets m (buildTag agg.cfg.tags fields)
      = bucketSamples agg.buckets m (buildTag agg.cfg.tags fields)
        ++ [(goParseInt64 tv).getD 1] := by
  have hbk : (agg.record wallNow fields).2.buckets
      = bucketsAppend agg.buckets m (buildTag agg.cfg.tags fields) ((goParseInt64 tv).getD 1) := by
    unfold Aggregator.record
    rw [hm]
    simp only [if_neg htgt, htv]
    cases hp : goParseInt64 tv with
    | none => simp [hp]
    | some v => simp [hp]
  exact ⟨hbk, by rw [hbk]; exact bucketSamples_bucketsAppend _ _ _ _⟩

theorem C6_witness :
    bucketSamples ((newAggregator 60 cfgEx).record 1000
        [("m", GoVal.str "cpu"), ("t", GoVal.str "abc")]).2.buckets
      "cpu" (buildTag cfgEx.tags [("m", GoVal.str "cpu"), ("t", GoVal.str "abc")])
    = bucketSamples (newAggregator 60 cfgEx).buckets
        "cpu" (buildTag cfgEx.tags [("m", GoVal.str "cpu"), ("t", GoVal.str "abc")])
      ++ [(goParseInt64 "abc").getD 1] :=
  (C6_record (newAggregator 60 cfgEx) 1000
    [("m", GoVal.str "cpu"), ("t", GoVal.str "abc")] "cpu" "abc" rfl (by decide) rfl).2

/-- C7: for a registered task whose persisted stat says `Stop=false` (and
whose in-memory flag agrees, as it does in every reachable state since start
and stop update both together), `StartPeckTask` returns the already-started
failure with the registry left exactly as it was — the `LogTask` flag write
is value-level idempotent and no stat is persisted — and a subsequent
`StopPeckTask` succeeds and persists `Stop=true`. -/
theorem C7_already_started (s : PeckerS) (name path : String) (lt : LogTaskS)
    (hname : assocLookup s.nameToPath name = some path)
    (hlt : assocLookup s.logTasks path = some lt)
    (hsync : ∀ t ∈ lt.tasks, t.name = name → t.stop = false)
    (hstat : assocLookup s.dbStats name = some false) :
    startPeckTask s name = some (s, some "Task already started") ∧
    (∃ s₁, stopPeckTask s name = some (s₁, none) ∧
      assocLookup s₁.dbStats name = some true) := by
  have hsetid : mapSet s.logTasks path (logTaskStart lt name) = s.logTasks := by
    rw [logTaskStart_id lt name hsync]
    exact mapSet_lookup_self s.logTasks path lt hlt
  constructor
  · unfold startPeckTask
    simp only [hname, hlt, hstat, hsetid]
    rfl
  · refine ⟨{ s with
      logTasks := mapSet s.logTasks path (logTaskStop lt name),
      dbStats := mapSet s.dbStats name true }, ?_, ?_⟩
    · unfold stopPeckTask
      simp only [hname, hlt, hstat]
      rfl
    · rw [assocLookup_mapSet, if_pos rfl]

/-- A one-task started state: task `a` on path `p`, in-memory and persisted
`Stop` both false. -/
def peckerSEx : PeckerS :=
  { nameToPath := [("a", "p")],
    logTasks := [("p", { tasks := [{ name := "a", stop := false }] })],
    dbStats := [("a", false)] }

theorem C7_witness :
    startPeckTask peckerSEx "a" = some (peckerSEx, some "Task already started") ∧
    (∃ s₁, stopPeckTask peckerSEx "a" = some (s₁, none) ∧
      assocLookup s₁.dbStats "a" = some true) :=
  C7_already_started peckerSEx "a" "p" { tasks := [{ name := "a", stop := false }] }
    rfl rfl (by decide) rfl

/-- The configuration of a task whose aggregation list carries the malformed
percentile name `pxx`. -/
def cfg8agg : AggregatorConfig :=
  { preMeasurment := "", measurment := "m", tags := [], aggregations := ["pxx"],
    target := "t", timestamp := "ts" }

def cfg8 : PeckTaskConfigM :=
  { name := "t8", aggregatorInterval := 60, aggregatorCfg := cfg8agg }

/-- C8 (code bug): contrary to the spec, `NewPeckTask` performs no validation
of the aggregation names — construction with `Aggregations = ["pxx"]`
succeeds whenever the extractor and sender construct — and the malformed name
then panics at runtime inside `getAggregation` (`panic(aggregations[i])`
after `strconv.ParseInt("xx")` fails) the first time a non-empty bucket is
dumped. -/
theorem C8_no_validation :
    newPeckTask cfg8 none true true
      = some { config := cfg8, stat := { name := "t8", stop := true },
               aggregator := newAggregator 60 cfg8agg } ∧
    getAggregation [5] ["pxx"] = none := by
  constructor
  · rfl
  · rfl

/-- The field map produced by dumping the one-sample bucket recorded by
`extractEx`: exactly what `Dump` hands to the sender. -/
def fieldsEx9 : List (String × GoVal) :=
  [("req", GoVal.mapI64 [("cnt", 1)]), ("timestamp", GoVal.i64 60)]

/-- C9 (code bug): a field map actually produced by `Aggregator.Dump` (first
conjunct: recording one sample and dumping yields `fieldsEx9`, whose bucket
entry is a `map[string]int64`) makes `toInfluxdbLine` panic — its
`v.(map[string]float64)` type assertion fails on the `int64` map — so `Send`
never emits a line for any dump that contains data; only the degenerate
timestamp-only dump survives, producing an empty payload. -/
theorem C9_dump_panics_sender :
    (((newAggregator 60 cfgEx).record 1000 (extractEx "")).2.dump 60).map Prod.fst
      = some fieldsEx9 ∧
    toInfluxdbLine "host" fieldsEx9 = none ∧
    toInfluxdbLine "host" [("timestamp", GoVal.i64 60)] = some "" := by
  refine ⟨?_, ?_, ?_⟩ <;> rfl

/-- C10: the document sent by `ElasticSearchSender.Send` answers every key
with the input field's value when the input binds it (the generated stamps
are inserted first and then overwritten by the fold of Go map assignments),
and with the generated `Host` / millisecond `Timestamp` stamps only for keys
the input does not bind. -/
theorem C10_es_document (host : String) (nowMs : Int)
    (fields : List (String × GoVal)) (k : String) :
    assocLookup (esSendData host nowMs fields) k
      = match assocLookup fields.reverse k with
        | some v => some v
        | none =>
          if "Host" = k then some (GoVal.str host)
          else if "Timestamp" = k then some (GoVal.i64 nowMs)
          else none := by
  unfold esSendData
  rw [foldl_mapSet_lookup]
  cases h : assocLookup fields.reverse k with
  | some v => rfl
  | none => simp [assocLookup]
